import Mathlib

/-!
Verification of the conda channel replication tool (conda_replicate / conda_local).

This file shallowly embeds the core of the repository:
  * the package data model (src/src/conda_local/adapters/package.py);
  * the diff step of find_packages (src/src/conda_replicate/core.py, lines 55-63);
  * the patch-instruction update loop of run_patch (core.py, lines 112-115) together
    with the PatchInstructions model (src/src/conda_replicate/adapters/channel.py);
  * the Resolver pipeline (src/src/conda_replicate/resolve.py): graph construction,
    the two pruning passes, root verification and package extraction.

Machine representation notes:
  * Python dict/set iteration orders that the source leaves unspecified
    (set.pop on the work list, iteration over set(graph) in the pruning scan) are
    modelled by explicit choice parameters quantified over in the theorems.
  * Match-specification parsing and matching delegate to the external conda
    library in the source; per spec sections 4.2 and 9 they are a pluggable
    predicate provider, modelled here as an abstract pair of functions
    (a name projection and a match predicate) bundled in SpecUniverse.
-/

set_option maxRecDepth 4000

/-- Append an element to a list unless it is already present.  This models the
observable content of a Python set insertion (membership plus first-insertion
order where the source relies on it). -/
def insertAbs {α : Type} [DecidableEq α] (l : List α) (a : α) : List α :=
  if a ∈ l then l else l ++ [a]

/-- Deduplicate a list keeping first occurrences; models building a Python set
from an iterable. -/
def dedupList {α : Type} [DecidableEq α] (l : List α) : List α :=
  l.foldl insertAbs []

/-- A conda package record, following the attributes read by the core
(src/src/conda_local/adapters/package.py).  The channel field is carried but is
deliberately not part of the identity key. -/
structure CondaPackage where
  subdir : String
  name : String
  version : String
  build_number : Nat
  build : String
  fn : String
  channel : String
  depends : List String
deriving DecidableEq, Repr

/-- The identity key of a package record: CondaPackage._key in the source,
built as (subdir, name, version, build_number, build); the channel is excluded
on purpose. -/
def packageKey (p : CondaPackage) : String × String × String × Nat × String :=
  (p.subdir, p.name, p.version, p.build_number, p.build)

/-- The Python error surfaced by attribute access on an object lacking the
attribute. -/
inductive PyError where
  | attributeError
deriving DecidableEq, Repr

/-- A value living in the resolution graph's node space: specification strings
and package records share it. -/
inductive PyGraphValue where
  | str (s : String)
  | pkg (p : CondaPackage)
deriving DecidableEq, Repr

/-- Attribute access other._key as performed by CondaPackage.__eq__:
package records expose their identity key, any other value (in the graph's
node space, a specification string) raises AttributeError. -/
def lookupKeyAttr : PyGraphValue → Except PyError (String × String × String × Nat × String)
  | PyGraphValue.pkg q => Except.ok (packageKey q)
  | PyGraphValue.str _ => Except.error PyError.attributeError

/-- CondaPackage.__eq__ (package.py lines 80-81): return self._key == other._key.
The attribute access on other happens before any comparison, so a non-package
argument raises rather than compares unequal. -/
def condaPackageEq (p : CondaPackage) (other : PyGraphValue) : Except PyError Bool :=
  match lookupKeyAttr other with
  | Except.error e => Except.error e
  | Except.ok k => Except.ok (decide (packageKey p = k))

/-- Membership of a package in a collection under Python set semantics, which
use CondaPackage.__hash__/__eq__ and therefore compare identity keys only. -/
def keyMem (p : CondaPackage) (l : List CondaPackage) : Bool :=
  l.any (fun q => decide (packageKey q = packageKey p))

/-- The diff step of find_packages (core.py lines 55-63): to_add is the
resolver output minus the records already in the target channel, to_remove the
converse, both under key-based set membership. -/
def findPackagesDiff (packages existing : List CondaPackage) :
    List CondaPackage × List CondaPackage :=
  (packages.filter (fun p => !(keyMem p existing)),
   existing.filter (fun q => !(keyMem q packages)))

/-- Re-homing a record in another channel: every field but the channel name is
preserved.  Used to state channel independence of the diff. -/
def setChannel (c : String) (p : CondaPackage) : CondaPackage :=
  { p with channel := c }

/-- The patch_instructions.json data model (adapters/channel.py, class
PatchInstructions).  Package metadata maps are opaque association lists here;
the core never inspects them. -/
structure PatchInstructions where
  conda_packages : List (String × String)
  packages : List (String × String)
  remove : List String
  revoke : List String
  version : Nat
deriving DecidableEq, Repr

/-- One iteration of the patch-instruction loop of run_patch (core.py lines
112-115): read the upstream instructions for the subdir, extend the remove
list with the filename of every record in to_remove, and hand the result to
write_instructions.  Note the source extends with all of to_remove regardless
of each record's subdir. -/
def runPatchSubdir (readInstructions : String → PatchInstructions)
    (to_remove : List CondaPackage) (subdir : String) : PatchInstructions :=
  let instructions := readInstructions subdir
  { instructions with remove := instructions.remove ++ to_remove.map (fun pkg => pkg.fn) }

/-- Modelled from the spec (sections 4.2 and 9): the pluggable
match-specification provider.  The source delegates parsing and matching to
the external conda library (CondaSpecification wraps conda.exports.MatchSpec);
only the name projection and the match predicate are consumed by the core. -/
structure SpecUniverse where
  specName : String → String
  specMatch : String → CondaPackage → Bool

/-- A conda channel as the resolver sees it: the finite union of all records
in its per-subdir indexes. -/
structure Channel where
  index : List CondaPackage

/-- CondaChannel.query_packages (adapters/channel.py lines 79-93), through the
contract of spec section 4.2: every record of the channel lying in one of the
requested subdirs that the specification matches. -/
def queryPackages (U : SpecUniverse) (ch : Channel) (spec : String)
    (subdirs : List String) : List CondaPackage :=
  ch.index.filter (fun p => subdirs.contains p.subdir && U.specMatch spec p)

/-- The resolution parameters (resolve.py, class Parameters), kept as the raw
specification strings; the grouping by name performed in Parameters.__init__
is applied at use sites via specName. -/
structure Parameters where
  requirements : List String
  exclusions : List String
  disposables : List String
  subdirs : List String

/-- Parameters.is_constrained (resolve.py lines 435-446): a package is
constrained when it violates some requirement spec of its name group or is
matched by some exclusion spec of its name group. -/
def is_constrained (U : SpecUniverse) (P : Parameters) (package : CondaPackage) : Bool :=
  let requirements := P.requirements.filter (fun s => U.specName s == package.name)
  if !(requirements.all (fun s => U.specMatch s package)) then true
  else
    let exclusions := P.exclusions.filter (fun s => U.specName s == package.name)
    if exclusions.any (fun s => U.specMatch s package) then true
    else false

/-- Parameters.is_disposable (resolve.py lines 448-451). -/
def is_disposable (U : SpecUniverse) (P : Parameters) (package : CondaPackage) : Bool :=
  let disposables := P.disposables.filter (fun s => U.specName s == package.name)
  disposables.any (fun s => U.specMatch s package)

/-- Resolver._query_channel (resolve.py lines 315-339) in the latest=False
configuration used by core.find_packages: the channel query filtered by the
constraint filter. -/
def resolverQuery (U : SpecUniverse) (ch : Channel) (P : Parameters)
    (spec : String) : List CondaPackage :=
  (queryPackages U ch spec P.subdirs).filter (fun p => !(is_constrained U P p))

/-- A node of the resolution graph: match-specification strings and package
records, as in the networkx DiGraph populated by Resolver._construct_graph. -/
inductive RNode where
  | spec (s : String)
  | pkg (p : CondaPackage)
deriving DecidableEq, Repr

/-- Is the node a specification string (isinstance(node, str) in the source)? -/
def isSpecNode : RNode → Bool
  | RNode.spec _ => true
  | RNode.pkg _ => false

/-- Is the node a package record (isinstance(node, CondaPackage))? -/
def isPkgNode : RNode → Bool
  | RNode.spec _ => false
  | RNode.pkg _ => true

/-- The observable content of the networkx directed graph the resolver uses:
node set and edge set, kept as insertion-ordered duplicate-free lists. -/
structure DiGraph where
  nodes : List RNode
  edges : List (RNode × RNode)
deriving DecidableEq, Repr

/-- graph.add_node: a no-op when the node is already present. -/
def addNode (g : DiGraph) (n : RNode) : DiGraph :=
  { g with nodes := insertAbs g.nodes n }

/-- graph.add_edge: ensures both endpoints are present and inserts the edge
(a no-op when already present). -/
def addEdge (g : DiGraph) (a b : RNode) : DiGraph :=
  { nodes := insertAbs (insertAbs g.nodes a) b, edges := insertAbs g.edges (a, b) }

/-- graph.remove_node: drops the node and every incident edge. -/
def removeNode (g : DiGraph) (n : RNode) : DiGraph :=
  { nodes := g.nodes.filter (fun m => !(m == n)),
    edges := g.edges.filter (fun e => !(e.1 == n) && !(e.2 == n)) }

/-- list(graph.successors n): targets of the outgoing edges of n. -/
def successors (g : DiGraph) (n : RNode) : List RNode :=
  (g.edges.filter (fun e => e.1 == n)).map Prod.snd

/-- list(graph.predecessors n): sources of the incoming edges of n. -/
def predecessors (g : DiGraph) (n : RNode) : List RNode :=
  (g.edges.filter (fun e => e.2 == n)).map Prod.fst

/-- Every edge endpoint is a node of the graph (networkx maintains this;
our operations do as well). -/
def EClosed (g : DiGraph) : Prop :=
  ∀ e ∈ g.edges, e.1 ∈ g.nodes ∧ e.2 ∈ g.nodes

/-- The graph is bipartite between specification and package nodes with
strictly alternating edges (spec section 3, maintained by construction). -/
def Bip (g : DiGraph) : Prop :=
  ∀ e ∈ g.edges, (isSpecNode e.1 = true ∧ isPkgNode e.2 = true) ∨
    (isPkgNode e.1 = true ∧ isSpecNode e.2 = true)

/-- Directed reachability along the edges of a graph. -/
def Reaches (g : DiGraph) (a b : RNode) : Prop :=
  Relation.ReflTransGen (fun u v => (u, v) ∈ g.edges) a b

/-- The running state of Resolver._construct_graph (resolve.py lines 268-313):
the graph under construction, the work set specs_to_process, the set
specs_processed, and the trace of specs handed to _query_channel, in order. -/
structure ConstructState where
  graph : DiGraph
  toProcess : List String
  processed : List String
  trace : List String
deriving Repr

/-- The inner body handling one dependency string of a queried package:
add the spec node if missing, link the package to it, and put it on the work
set unless it was already processed (set add semantics). -/
def processDepend (package : CondaPackage) (st : ConstructState) (depend : String) :
    ConstructState :=
  let g := if st.graph.nodes.contains (RNode.spec depend) then st.graph
           else addNode st.graph (RNode.spec depend)
  let g := addEdge g (RNode.pkg package) (RNode.spec depend)
  let toP := if st.processed.contains depend then st.toProcess
             else insertAbs st.toProcess depend
  { st with graph := g, toProcess := toP }

/-- The body handling one package returned by the channel query for a spec:
add the package node if missing, link the spec to it, then walk its dependency
strings in declaration order. -/
def processPackage (spec : String) (st : ConstructState) (package : CondaPackage) :
    ConstructState :=
  let g := if st.graph.nodes.contains (RNode.pkg package) then st.graph
           else addNode st.graph (RNode.pkg package)
  let g := addEdge g (RNode.spec spec) (RNode.pkg package)
  package.depends.foldl (processDepend package) { st with graph := g }

/-- Processing one popped spec: one _query_channel call, then the package
loop. -/
def processSpec (query : String → List CondaPackage) (st : ConstructState)
    (spec : String) : ConstructState :=
  (query spec).foldl (processPackage spec) st

/-- The while loop of Resolver._construct_graph.  specs_to_process is a Python
set, whose pop order the language does not specify; the choice is modelled by
the pick parameter selecting an index into the current work set.  The fuel
argument bounds the number of iterations; constructGraph supplies enough fuel
to reach the empty work set (see the termination theorems). -/
def constructLoop (query : String → List CondaPackage) (pick : List String → Nat) :
    Nat → ConstructState → ConstructState
  | 0, st => st
  | Nat.succ n, st =>
    match st.toProcess with
    | [] => st
    | x :: xs =>
      let i := pick (x :: xs) % (x :: xs).length
      let s := (x :: xs).get ⟨i, Nat.mod_lt _ (Nat.succ_pos xs.length)⟩
      let st1 : ConstructState :=
        { st with
          toProcess := (x :: xs).eraseIdx i,
          processed := insertAbs st.processed s,
          trace := st.trace ++ [s] }
      constructLoop query pick n (processSpec query st1 s)

/-- The initial construction state: the deduplicated requirement strings are
the roots, all of them on the work set, with root nodes added to the graph. -/
def initialState (requirements : List String) : ConstructState :=
  let roots := dedupList requirements
  { graph := { nodes := roots.map RNode.spec, edges := [] },
    toProcess := roots, processed := [], trace := [] }

/-- The universe of specification strings a resolution run can ever enqueue:
the requirements plus every dependency string occurring in the channel index.
Finitely many, which bounds the loop (spec section 4.5.1, Termination). -/
def specStringUniverse (ch : Channel) (P : Parameters) : List String :=
  dedupList (P.requirements ++ ch.index.flatMap (fun p => p.depends))

/-- The root spec strings: set(req.value for req in parameters.requirements). -/
def resolveRoots (P : Parameters) : List String :=
  dedupList P.requirements

/-- The full construction run with enough fuel to drain the work set. -/
def resolveFinalState (U : SpecUniverse) (ch : Channel) (P : Parameters)
    (pick : List String → Nat) : ConstructState :=
  constructLoop (resolverQuery U ch P) pick (specStringUniverse ch P).length
    (initialState P.requirements)

/-- The constructed dependency graph handed to the pruning passes. -/
def resolveG0 (U : SpecUniverse) (ch : Channel) (P : Parameters)
    (pick : List String → Nat) : DiGraph :=
  (resolveFinalState U ch P pick).graph

/-- Resolver._prune_unsatisfied_node (resolve.py lines 347-370), fuelled.
A present specification node with no successors is removed together with every
package that depended on it (its predecessors), and the spec predecessors of
each such package are recursively re-examined.  Package nodes and absent or
satisfied nodes are left untouched.  The fuel only needs to exceed the node
count of the graph (each recursive call happens after at least one removal). -/
def pruneNode : Nat → DiGraph → RNode → DiGraph
  | 0, g, _ => g
  | Nat.succ n, g, node =>
    if !(isSpecNode node) then g
    else if !(g.nodes.contains node) then g
    else if !(successors g node).isEmpty then g
    else
      let parents := predecessors g node
      let g1 := removeNode g node
      parents.foldl
        (fun h parent =>
          if !(h.nodes.contains parent) then h
          else
            let grandparents := predecessors h parent
            let h1 := removeNode h parent
            grandparents.foldl (fun k q => pruneNode n k q) h1)
        g1

/-- The parent-removal loop inside _prune_unsatisfied_node, factored out for
reasoning; pruneNode (n+1) unfolds to it. -/
def pruneParentsFold (n : Nat) (g : DiGraph) (parents : List RNode) : DiGraph :=
  parents.foldl
    (fun h parent =>
      if !(h.nodes.contains parent) then h
      else
        let grandparents := predecessors h parent
        let h1 := removeNode h parent
        grandparents.foldl (fun k q => pruneNode n k q) h1)
    g

/-- Resolver._prune_unsatisfied_nodes (resolve.py lines 341-345): apply the
single-node pruning to a snapshot of the node set.  The snapshot is a Python
set whose iteration order is unspecified; it is passed as the order list. -/
def pruneScan (fuel : Nat) (g : DiGraph) (order : List RNode) : DiGraph :=
  order.foldl (pruneNode fuel) g

/-- Pass 1 with the set-iteration order chosen by sord: a run of
_prune_unsatisfied_nodes over the snapshot sord g.nodes. -/
def pass1With (sord : List RNode → List RNode) (g : DiGraph) : DiGraph :=
  pruneScan g.nodes.length g (sord g.nodes)

/-- Pass 1 with the snapshot visited in node insertion order. -/
def pass1 (g : DiGraph) : DiGraph :=
  pass1With (fun l => l) g

/-- One round of closure expansion: every successor of every visited node is
added to the visited set. -/
def stepClosure (g : DiGraph) (vs : List RNode) : List RNode :=
  vs.foldl (fun acc u => (successors g u).foldl insertAbs acc) vs

/-- Iterated closure expansion with fuel. -/
def reachIter (g : DiGraph) : Nat → List RNode → List RNode
  | 0, vs => vs
  | Nat.succ n, vs => reachIter g n (stepClosure g vs)

/-- nx.dfs_preorder_nodes(graph, source) as a set: the source together with
every node reachable from it.  One expansion per edge suffices. -/
def reachSet (g : DiGraph) (source : RNode) : List RNode :=
  reachIter g g.edges.length [source]

/-- The connected set built by _prune_disconnected_nodes (resolve.py lines
372-382): the union of the reachable sets of all root specs. -/
def connectedSet (g : DiGraph) (roots : List String) : List RNode :=
  roots.foldl (fun acc r => (reachSet g (RNode.spec r)).foldl insertAbs acc) []

/-- Resolver._prune_disconnected_nodes: remove every node with no path from a
root. -/
def pass2 (g : DiGraph) (roots : List String) : DiGraph :=
  let connected := connectedSet g roots
  let disconnected := g.nodes.filter (fun n => !(connected.contains n))
  disconnected.foldl removeNode g

/-- Resolver._verify_roots (resolve.py lines 384-388): the root specs no
longer present in the graph, in the sorted order the error reports
(UnsatisfiedRequirementsError stores sorted(missing)). -/
def missingRoots (g : DiGraph) (roots : List String) : List String :=
  (roots.filter (fun r => !(g.nodes.contains (RNode.spec r)))).insertionSort (· ≤ ·)

/-- Resolver._extract_packages (resolve.py lines 390-406): the package nodes of
the pruned graph, dropping disposables. -/
def extractPackages (U : SpecUniverse) (P : Parameters) (g : DiGraph) :
    List CondaPackage :=
  g.nodes.filterMap (fun n =>
    match n with
    | RNode.pkg p => if is_disposable U P p then none else some p
    | RNode.spec _ => none)

/-- The graph after Pass 1, as computed inside Resolver.resolve.  sord models
the unspecified iteration order of set(graph) in the pruning scan. -/
def resolveG1 (U : SpecUniverse) (ch : Channel) (P : Parameters)
    (pick : List String → Nat) (sord : List RNode → List RNode) : DiGraph :=
  pass1With sord (resolveG0 U ch P pick)

/-- The graph after both pruning passes. -/
def resolveG2 (U : SpecUniverse) (ch : Channel) (P : Parameters)
    (pick : List String → Nat) (sord : List RNode → List RNode) : DiGraph :=
  pass2 (resolveG1 U ch P pick sord) (resolveRoots P)

/-- Resolver.resolve (resolve.py lines 250-266): construct, prune unsatisfied,
verify roots (raising UnsatisfiedRequirementsError with the sorted missing
roots), prune disconnected, extract. -/
def resolveExcept (U : SpecUniverse) (ch : Channel) (P : Parameters)
    (pick : List String → Nat) (sord : List RNode → List RNode) :
    Except (List String) (List CondaPackage) :=
  let g1 := resolveG1 U ch P pick sord
  let missing := missingRoots g1 (resolveRoots P)
  if missing.isEmpty then
    Except.ok (extractPackages U P (resolveG2 U ch P pick sord))
  else Except.error missing

/-- A concrete pluggable matcher for the example runs: a specification string
names a package directly and matches exactly the records of that name. -/
def nameOnlyUniverse : SpecUniverse :=
  { specName := fun s => s, specMatch := fun s p => s == p.name }

/-- Helper building an example record in subdir noarch of channel main. -/
def mkNoarch (name : String) (depends : List String) : CondaPackage :=
  { subdir := "noarch", name := name, version := "1.0", build_number := 0,
    build := "0", fn := name ++ "-1.0-0.tar.bz2", channel := "main",
    depends := depends }

/-- Example record a, depending on b. -/
def pkgA : CondaPackage := mkNoarch "a" ["b"]

/-- Example record b, no dependencies. -/
def pkgB : CondaPackage := mkNoarch "b" []

/-- Example record a2, depending on b and c in that declaration order. -/
def pkgA2 : CondaPackage := mkNoarch "a" ["b", "c"]

/-- Example record c, no dependencies. -/
def pkgC : CondaPackage := mkNoarch "c" []

/-- Example channel holding a -> b and b. -/
def chanAB : Channel := { index := [pkgA, pkgB] }

/-- Example channel holding a -> b, c together with b and c. -/
def chanABC : Channel := { index := [pkgA2, pkgB, pkgC] }

/-- An empty example channel. -/
def chanEmpty : Channel := { index := [] }

/-- Example parameters: require a, dispose of b (spec section 8, scenario 7). -/
def paramsDisposeB : Parameters :=
  { requirements := ["a"], exclusions := [], disposables := ["b"],
    subdirs := ["noarch"] }

/-- Example parameters: require a, nothing else. -/
def paramsOnlyA : Parameters :=
  { requirements := ["a"], exclusions := [], disposables := [],
    subdirs := ["noarch"] }

/-- A pop choice always taking the first element of the work set. -/
def pickFirst : List String → Nat := fun _ => 0

/-- A pop choice always taking the last element of the work set; as admissible
an execution of set.pop as pickFirst. -/
def pickLast : List String → Nat := fun l => l.length - 1

/-- The identity snapshot order for the pruning scan. -/
def sordId : List RNode → List RNode := fun l => l

/-- Empty patch instructions, as read_instructions yields for a missing
patch_instructions.json. -/
def emptyInstructions : PatchInstructions :=
  { conda_packages := [], packages := [], remove := [], revoke := [], version := 1 }

/-- A record living in subdir linux-64. -/
def pkgLinux : CondaPackage :=
  { subdir := "linux-64", name := "z", version := "1.0", build_number := 0,
    build := "0", fn := "z-1.0-0.tar.bz2", channel := "main", depends := [] }

/-- The index chosen by the set.pop model on a non-empty work set. -/
def popIndex (pick : List String → Nat) (x : String) (xs : List String) : Nat :=
  pick (x :: xs) % (x :: xs).length

/-- The spec string popped from a non-empty work set. -/
def popSpec (pick : List String → Nat) (x : String) (xs : List String) : String :=
  (x :: xs).get ⟨popIndex pick x xs, Nat.mod_lt _ (Nat.succ_pos xs.length)⟩

/-- The state right after the pop at the top of a loop iteration: the spec
leaves the work set, joins the processed set, and is recorded on the query
trace. -/
def popState (pick : List String → Nat) (st : ConstructState) (x : String)
    (xs : List String) : ConstructState :=
  { st with
    toProcess := (x :: xs).eraseIdx (popIndex pick x xs),
    processed := insertAbs st.processed (popSpec pick x xs),
    trace := st.trace ++ [popSpec pick x xs] }

/-- The structural invariant of the graph being built: edges live between
present nodes, strictly alternate between specs and packages, candidate edges
come from constraint-filtered channel queries, every package node was produced
by some query, and every package node is linked to each of its dependency
strings. -/
def GraphInvCore (U : SpecUniverse) (ch : Channel) (P : Parameters) (g : DiGraph) : Prop :=
  EClosed g ∧ Bip g ∧
  (∀ e ∈ g.edges,
    (∃ s p, e = (RNode.spec s, RNode.pkg p) ∧ p ∈ resolverQuery U ch P s) ∨
    (∃ p d, e = (RNode.pkg p, RNode.spec d) ∧ d ∈ p.depends)) ∧
  (∀ p : CondaPackage, RNode.pkg p ∈ g.nodes → ∃ s, p ∈ resolverQuery U ch P s)

/-- GraphInvCore together with completeness of dependency linking: a package
node carries an edge to every one of its dependency strings. -/
def GraphInv (U : SpecUniverse) (ch : Channel) (P : Parameters) (g : DiGraph) : Prop :=
  GraphInvCore U ch P g ∧
  (∀ p : CondaPackage, RNode.pkg p ∈ g.nodes → ∀ d ∈ p.depends,
    (RNode.pkg p, RNode.spec d) ∈ g.edges)

/-- The bookkeeping invariant of the expansion loop: the work set and the
processed set are duplicate-free and disjoint, both draw from the finite spec
universe, and the trace of channel queries coincides with the processed set in
order. -/
def WorkInv (ch : Channel) (P : Parameters) (st : ConstructState) : Prop :=
  st.toProcess.Nodup ∧
  (∀ s ∈ st.toProcess, s ∉ st.processed) ∧
  (∀ s ∈ st.toProcess, s ∈ specStringUniverse ch P) ∧
  (∀ s ∈ st.processed, s ∈ specStringUniverse ch P) ∧
  st.trace = st.processed ∧
  st.processed.Nodup

/-- Both node and edge lists only shrink (pointwise sublists) under a graph
transformation. -/
def PruneShrinks (g g' : DiGraph) : Prop :=
  g'.nodes.Sublist g.nodes ∧ g'.edges.Sublist g.edges

/-- Pruning a node x creates no new unsatisfied specification node: a spec
still present but unsatisfied afterwards was already unsatisfied, and is not x
itself. -/
def PruneNoNewUnsat (g g' : DiGraph) (x : RNode) : Prop :=
  ∀ s, s ∈ g'.nodes → isSpecNode s = true → successors g' s = [] →
    successors g s = [] ∧ s ≠ x

/-- A package node that survives a pruning step keeps every outgoing edge it
had before the step. -/
def PrunePkgEdgeKeep (g g' : DiGraph) : Prop :=
  ∀ p y, RNode.pkg p ∈ g'.nodes → (RNode.pkg p, y) ∈ g.edges →
    (RNode.pkg p, y) ∈ g'.edges

/-- The inductive package of facts about one _prune_unsatisfied_node call. -/
def PruneMainP (n : Nat) (g : DiGraph) (x : RNode) : Prop :=
  PruneShrinks g (pruneNode n g x) ∧
  PruneNoNewUnsat g (pruneNode n g x) x ∧
  (EClosed g → EClosed (pruneNode n g x)) ∧
  (Bip g → PrunePkgEdgeKeep g (pruneNode n g x))

/-! Helper lemmas about the list-based set model. -/

theorem mem_insertAbs {α : Type} [DecidableEq α] (l : List α) (a b : α) :
    b ∈ insertAbs l a ↔ b ∈ l ∨ b = a := by
  by_cases h : a ∈ l
  · simp only [insertAbs, if_pos h]
    constructor
    · exact Or.inl
    · rintro (hb | rfl)
      · exact hb
      · exact h
  · simp [insertAbs, if_neg h]

theorem insertAbs_nodup {α : Type} [DecidableEq α] {l : List α} (h : l.Nodup) (a : α) :
    (insertAbs l a).Nodup := by
  by_cases ha : a ∈ l
  · simpa [insertAbs, if_pos ha] using h
  · rw [insertAbs, if_neg ha]
    refine List.Nodup.append h (List.nodup_singleton a) ?_
    intro x hx hxa
    exact ha ((List.mem_singleton.mp hxa) ▸ hx)

theorem foldl_insertAbs_append {α : Type} [DecidableEq α] :
    ∀ (l acc : List α), ∃ extra, l.foldl insertAbs acc = acc ++ extra ∧
      ∀ x ∈ extra, x ∈ l ∧ x ∉ acc := by
  intro l
  induction l with
  | nil => intro acc; exact ⟨[], by simp⟩
  | cons a t ih =>
    intro acc
    by_cases ha : a ∈ acc
    · obtain ⟨extra, he, hx⟩ := ih acc
      refine ⟨extra, ?_, ?_⟩
      · simpa [List.foldl_cons, insertAbs, if_pos ha] using he
      · intro x hxe
        exact ⟨List.mem_cons_of_mem _ (hx x hxe).1, (hx x hxe).2⟩
    · obtain ⟨extra, he, hx⟩ := ih (acc ++ [a])
      refine ⟨a :: extra, ?_, ?_⟩
      · simpa [List.foldl_cons, insertAbs, if_neg ha] using he
      · intro x hxe
        rcases List.mem_cons.mp hxe with rfl | hxe2
        · exact ⟨List.mem_cons_self _ _, ha⟩
        · have h1 := (hx x hxe2).1
          have h2 := (hx x hxe2).2
          refine ⟨List.mem_cons_of_mem _ h1, fun hc => h2 ?_⟩
          exact List.mem_append.mpr (Or.inl hc)

theorem mem_foldl_insertAbs {α : Type} [DecidableEq α] (l acc : List α) (x : α) :
    x ∈ l.foldl insertAbs acc ↔ x ∈ acc ∨ x ∈ l := by
  induction l generalizing acc with
  | nil => simp
  | cons a t ih =>
    simp only [List.foldl_cons, ih, mem_insertAbs]
    constructor
    · rintro (⟨hx | rfl⟩ | hx)
      · exact Or.inl hx
      · exact Or.inr (List.mem_cons_self _ _)
      · exact Or.inr (List.mem_cons_of_mem _ hx)
    · rintro (hx | hx)
      · exact Or.inl (Or.inl hx)
      · rcases List.mem_cons.mp hx with rfl | hx
        · exact Or.inl (Or.inr rfl)
        · exact Or.inr hx

theorem foldl_insertAbs_nodup {α : Type} [DecidableEq α] :
    ∀ (l acc : List α), acc.Nodup → (l.foldl insertAbs acc).Nodup := by
  intro l
  induction l with
  | nil => intro acc h; exact h
  | cons a t ih => intro acc h; exact ih _ (insertAbs_nodup h a)

theorem mem_dedupList {α : Type} [DecidableEq α] (l : List α) (x : α) :
    x ∈ dedupList l ↔ x ∈ l := by
  simp [dedupList, mem_foldl_insertAbs]

theorem dedupList_nodup {α : Type} [DecidableEq α] (l : List α) :
    (dedupList l).Nodup :=
  foldl_insertAbs_nodup l [] List.nodup_nil

/-! Claim theorems for the package data model, the diff step and the patch
step. -/

/-- Claim C10: evaluating CondaPackage.__eq__ against any non-package value in
the graph's node space raises AttributeError instead of returning False, and
on a pair of packages it compares the channel-free identity keys. -/
theorem condaPackageEq_attribute_error :
    (∀ (p : CondaPackage) (s : String),
        condaPackageEq p (PyGraphValue.str s) = Except.error PyError.attributeError) ∧
    (∀ (p q : CondaPackage),
        condaPackageEq p (PyGraphValue.pkg q) =
          Except.ok (decide (packageKey p = packageKey q))) := by
  constructor
  · intro p s; rfl
  · intro p q; rfl

/-- Claim C6: the diff step returns upstream minus local and local minus
upstream under key-based membership, and diffing a collection against a
channel-renamed copy of itself (same identity keys, different channel field)
yields two empty sets. -/
theorem findPackagesDiff_spec :
    (∀ (packages existing : List CondaPackage) (p : CondaPackage),
        (p ∈ (findPackagesDiff packages existing).1 ↔
          p ∈ packages ∧ ¬ ∃ q ∈ existing, packageKey q = packageKey p) ∧
        (p ∈ (findPackagesDiff packages existing).2 ↔
          p ∈ existing ∧ ¬ ∃ q ∈ packages, packageKey q = packageKey p)) ∧
    (∀ (packages : List CondaPackage) (c : String),
        findPackagesDiff packages (packages.map (setChannel c)) = ([], [])) ∧
    (∀ packages : List CondaPackage, findPackagesDiff packages packages = ([], [])) := by
  refine ⟨?_, ?_, ?_⟩
  · intro packages existing p
    constructor
    · simp [findPackagesDiff, List.mem_filter, keyMem, List.any_eq_true]
    · simp [findPackagesDiff, List.mem_filter, keyMem, List.any_eq_true]
  · intro packages c
    have h1 : packages.filter (fun p => !(keyMem p (packages.map (setChannel c)))) = [] := by
      apply List.filter_eq_nil_iff.mpr
      intro p hp
      simp only [keyMem, Bool.not_eq_true', Bool.not_eq_false]
      exact List.any_eq_true.mpr
        ⟨setChannel c p, List.mem_map_of_mem _ hp, by simp [setChannel, packageKey]⟩
    have h2 : (packages.map (setChannel c)).filter (fun q => !(keyMem q packages)) = [] := by
      apply List.filter_eq_nil_iff.mpr
      intro q hq
      rcases List.mem_map.mp hq with ⟨p, hp, rfl⟩
      simp only [keyMem, Bool.not_eq_true', Bool.not_eq_false]
      exact List.any_eq_true.mpr ⟨p, hp, by simp [setChannel, packageKey]⟩
    simp [findPackagesDiff, h1, h2]
  · intro packages
    have h1 : packages.filter (fun p => !(keyMem p packages)) = [] := by
      apply List.filter_eq_nil_iff.mpr
      intro p hp
      simp only [keyMem, Bool.not_eq_true', Bool.not_eq_false]
      exact List.any_eq_true.mpr ⟨p, hp, by simp⟩
    simp [findPackagesDiff, h1]

/-- Claim C7, counterexample: with empty upstream instructions and a to_remove
set holding a single linux-64 record, the instructions written for subdir
noarch contain that record's filename in remove, whereas the claim predicts
the remove list stays empty (no to_remove record has subdir noarch). -/
theorem runPatchSubdir_filters_counterexample :
    runPatchSubdir (fun _ => emptyInstructions) [pkgLinux] "noarch" ≠
      { emptyInstructions with
          remove := emptyInstructions.remove ++
            (([pkgLinux].filter (fun r => r.subdir == "noarch")).map
              (fun r => r.fn)) } ∧
    (runPatchSubdir (fun _ => emptyInstructions) [pkgLinux] "noarch").remove =
      ["z-1.0-0.tar.bz2"] ∧
    pkgLinux.subdir ≠ "noarch" := by
  refine ⟨?_, rfl, ?_⟩ <;> decide

/-- Claim C7, amended: for every subdir processed by run_patch, the written
instructions equal the upstream instructions with the filenames of all
to_remove records appended to remove, irrespective of each record's subdir;
the packages, conda.packages, revoke and version fields are unchanged. -/
theorem runPatchSubdir_frame (read : String → PatchInstructions)
    (to_remove : List CondaPackage) (subdir : String) :
    (runPatchSubdir read to_remove subdir).conda_packages = (read subdir).conda_packages ∧
    (runPatchSubdir read to_remove subdir).packages = (read subdir).packages ∧
    (runPatchSubdir read to_remove subdir).revoke = (read subdir).revoke ∧
    (runPatchSubdir read to_remove subdir).version = (read subdir).version ∧
    (runPatchSubdir read to_remove subdir).remove =
      (read subdir).remove ++ to_remove.map (fun p => p.fn) ∧
    (∀ f, f ∈ (runPatchSubdir read to_remove subdir).remove ↔
      f ∈ (read subdir).remove ∨ ∃ p ∈ to_remove, p.fn = f) := by
  refine ⟨rfl, rfl, rfl, rfl, rfl, ?_⟩
  intro f
  simp [runPatchSubdir, List.mem_append, List.mem_map]

/-! Basic lemmas about the graph operations. -/

theorem mem_successors (g : DiGraph) (s t : RNode) :
    t ∈ successors g s ↔ (s, t) ∈ g.edges := by
  simp only [successors, List.mem_map, List.mem_filter, beq_iff_eq]
  constructor
  · rintro ⟨⟨e1, e2⟩, ⟨he, h1⟩, h2⟩
    subst h1
    subst h2
    exact he
  · intro h
    exact ⟨(s, t), ⟨h, rfl⟩, rfl⟩

theorem mem_predecessors (g : DiGraph) (s t : RNode) :
    t ∈ predecessors g s ↔ (t, s) ∈ g.edges := by
  simp only [predecessors, List.mem_map, List.mem_filter, beq_iff_eq]
  constructor
  · rintro ⟨⟨e1, e2⟩, ⟨he, h1⟩, h2⟩
    subst h1
    subst h2
    exact he
  · intro h
    exact ⟨(t, s), ⟨h, rfl⟩, rfl⟩

theorem successors_sublist {g h : DiGraph} (hsub : h.edges.Sublist g.edges) (s : RNode) :
    (successors h s).Sublist (successors g s) :=
  List.Sublist.map Prod.snd (List.Sublist.filter _ hsub)

theorem mem_removeNode_nodes (g : DiGraph) (n m : RNode) :
    m ∈ (removeNode g n).nodes ↔ m ∈ g.nodes ∧ m ≠ n := by
  simp [removeNode, List.mem_filter]

theorem mem_removeNode_edges (g : DiGraph) (n : RNode) (e : RNode × RNode) :
    e ∈ (removeNode g n).edges ↔ e ∈ g.edges ∧ e.1 ≠ n ∧ e.2 ≠ n := by
  simp [removeNode, List.mem_filter, and_assoc]

theorem removeNode_nodes_sublist (g : DiGraph) (n : RNode) :
    (removeNode g n).nodes.Sublist g.nodes :=
  List.filter_sublist _

theorem removeNode_edges_sublist (g : DiGraph) (n : RNode) :
    (removeNode g n).edges.Sublist g.edges :=
  List.filter_sublist _

theorem not_mem_removeNode_self (g : DiGraph) (n : RNode) :
    n ∉ (removeNode g n).nodes := by
  intro h
  exact ((mem_removeNode_nodes g n n).mp h).2 rfl

theorem length_removeNode_lt (g : DiGraph) (n : RNode) (h : n ∈ g.nodes) :
    (removeNode g n).nodes.length < g.nodes.length := by
  have hne : ¬ ((fun m => !(m == n)) n = true) := by simp
  calc (removeNode g n).nodes.length
      < g.nodes.length := by
        refine List.length_filter_lt_length_iff_exists.mpr ⟨n, h, hne⟩

theorem successors_removeNode_of_not_edge (g : DiGraph) (s p : RNode)
    (hne : s ≠ p) (hnedge : (s, p) ∉ g.edges) :
    successors (removeNode g p) s = successors g s := by
  unfold successors removeNode
  simp only [List.filter_filter]
  refine congrArg (List.map Prod.snd) (List.filter_congr ?_)
  intro e he
  by_cases h1 : e.1 = s
  · have h2 : e.2 ≠ p := by
      intro hc
      apply hnedge
      have : e = (s, p) := by
        cases e
        simp_all
      exact this ▸ he
    have h1p : e.1 ≠ p := by rw [h1]; exact hne
    simp [h1, h1p, h2, hne]
  · simp [h1]

theorem eclosed_removeNode {g : DiGraph} (h : EClosed g) (n : RNode) :
    EClosed (removeNode g n) := by
  intro e he
  rcases (mem_removeNode_edges g n e).mp he with ⟨hg, h1, h2⟩
  rcases h e hg with ⟨m1, m2⟩
  exact ⟨(mem_removeNode_nodes g n e.1).mpr ⟨m1, h1⟩,
    (mem_removeNode_nodes g n e.2).mpr ⟨m2, h2⟩⟩

theorem bip_of_edges_sublist {g h : DiGraph} (hb : Bip g)
    (hsub : h.edges.Sublist g.edges) : Bip h := by
  intro e he
  exact hb e (hsub.subset he)

theorem contains_iff_mem {α : Type} [DecidableEq α] (l : List α) (a : α) :
    l.contains a = true ↔ a ∈ l := by
  simp

theorem node_not_both (z : RNode) (h1 : isSpecNode z = true) (h2 : isPkgNode z = true) :
    False := by
  cases z <;> simp [isSpecNode, isPkgNode] at h1 h2

theorem pruneNode_succ_eq (n : Nat) (g : DiGraph) (x : RNode) :
    pruneNode (Nat.succ n) g x =
      if !(isSpecNode x) then g
      else if !(g.nodes.contains x) then g
      else if !(successors g x).isEmpty then g
      else pruneParentsFold n (removeNode g x) (predecessors g x) := rfl

theorem prune_gpfold (n : Nat)
    (IH : ∀ (g : DiGraph) (x : RNode), g.nodes.length ≤ n → PruneMainP n g x) :
    ∀ (l : List RNode) (k : DiGraph), k.nodes.length ≤ n →
      PruneShrinks k (l.foldl (pruneNode n) k) ∧
      (∀ s, s ∈ (l.foldl (pruneNode n) k).nodes → isSpecNode s = true →
        successors (l.foldl (pruneNode n) k) s = [] →
        successors k s = [] ∧ s ∉ l) ∧
      (EClosed k → EClosed (l.foldl (pruneNode n) k)) ∧
      (Bip k → PrunePkgEdgeKeep k (l.foldl (pruneNode n) k)) := by
  intro l
  induction l with
  | nil =>
    intro k hk
    refine ⟨⟨List.Sublist.refl _, List.Sublist.refl _⟩, ?_, fun h => h, fun _ => ?_⟩
    · intro s hs hspec hsucc
      exact ⟨hsucc, by simp⟩
    · intro p y hp he
      exact he
  | cons q t ih =>
    intro k hk
    have hmain := IH k q hk
    have hk1len : (pruneNode n k q).nodes.length ≤ n :=
      le_trans (List.Sublist.length_le hmain.1.1) hk
    have hrest := ih (pruneNode n k q) hk1len
    have hfold : (q :: t).foldl (pruneNode n) k = t.foldl (pruneNode n) (pruneNode n k q) := by
      simp [List.foldl_cons]
    rw [hfold]
    refine ⟨⟨hrest.1.1.trans hmain.1.1, hrest.1.2.trans hmain.1.2⟩, ?_, ?_, ?_⟩
    · intro s hs hspec hsucc
      obtain ⟨hsucc1, hnotin⟩ := hrest.2.1 s hs hspec hsucc
      have hsk1 : s ∈ (pruneNode n k q).nodes := hrest.1.1.subset hs
      obtain ⟨hsucck, hneq⟩ := hmain.2.1 s hsk1 hspec hsucc1
      refine ⟨hsucck, ?_⟩
      intro hc
      rcases List.mem_cons.mp hc with rfl | hc2
      · exact hneq rfl
      · exact hnotin hc2
    · intro hE
      exact hrest.2.2.1 (hmain.2.2.1 hE)
    · intro hB
      intro p y hp he
      have hpk1 : RNode.pkg p ∈ (pruneNode n k q).nodes := hrest.1.1.subset hp
      have he1 := hmain.2.2.2 hB p y hpk1 he
      have hB1 : Bip (pruneNode n k q) := bip_of_edges_sublist hB hmain.1.2
      exact hrest.2.2.2 hB1 p y hp he1

theorem prune_parfold (n : Nat)
    (IH : ∀ (g : DiGraph) (x : RNode), g.nodes.length ≤ n → PruneMainP n g x) :
    ∀ (l : List RNode) (h : DiGraph), h.nodes.length ≤ n + 1 →
      PruneShrinks h (pruneParentsFold n h l) ∧
      (∀ s, s ∈ (pruneParentsFold n h l).nodes → isSpecNode s = true →
        successors (pruneParentsFold n h l) s = [] → successors h s = []) ∧
      (∀ p ∈ l, p ∉ (pruneParentsFold n h l).nodes) ∧
      (EClosed h → EClosed (pruneParentsFold n h l)) ∧
      ((Bip h ∧ ∀ q ∈ l, isPkgNode q = true) →
        PrunePkgEdgeKeep h (pruneParentsFold n h l)) := by
  intro l
  induction l with
  | nil =>
    intro h hlen
    simp only [pruneParentsFold, List.foldl_nil]
    refine ⟨⟨List.Sublist.refl _, List.Sublist.refl _⟩, ?_, ?_, fun hE => hE, fun _ => ?_⟩
    · intro s _ _ hsucc
      exact hsucc
    · intro q hq
      exact absurd hq (List.not_mem_nil q)
    · intro a y _ he
      exact he
  | cons p t ih =>
    intro h hlen
    by_cases hp : h.nodes.contains p = true
    · -- the parent is still present: capture grandparents, remove it, prune them
      have hmem : p ∈ h.nodes := (contains_iff_mem _ _).mp hp
      have hlen1 : (removeNode h p).nodes.length ≤ n := by
        have := length_removeNode_lt h p hmem
        omega
      have hgp := prune_gpfold n IH (predecessors h p) (removeNode h p) hlen1
      have hfold : pruneParentsFold n h (p :: t) =
          pruneParentsFold n
            ((predecessors h p).foldl (pruneNode n) (removeNode h p)) t := by
        simp only [pruneParentsFold, List.foldl_cons, hp, Bool.not_true]
        rfl
      rw [hfold]
      have hsub2 : ((predecessors h p).foldl (pruneNode n) (removeNode h p)).nodes.Sublist
          h.nodes := hgp.1.1.trans (removeNode_nodes_sublist h p)
      have hsube2 : ((predecessors h p).foldl (pruneNode n) (removeNode h p)).edges.Sublist
          h.edges := hgp.1.2.trans (removeNode_edges_sublist h p)
      have hlen2 : ((predecessors h p).foldl (pruneNode n) (removeNode h p)).nodes.length
          ≤ n + 1 := le_trans (List.Sublist.length_le hgp.1.1) (le_trans hlen1 (Nat.le_succ n))
      have hrest := ih ((predecessors h p).foldl (pruneNode n) (removeNode h p)) hlen2
      refine ⟨⟨hrest.1.1.trans hsub2, hrest.1.2.trans hsube2⟩, ?_, ?_, ?_, ?_⟩
      · intro s hs hspec hsucc
        have hs2 : s ∈ ((predecessors h p).foldl (pruneNode n) (removeNode h p)).nodes :=
          hrest.1.1.subset hs
        have hsucc2 := hrest.2.1 s hs hspec hsucc
        obtain ⟨hsuccr, hnotgp⟩ := hgp.2.1 s hs2 hspec hsucc2
        have hsne : s ≠ p := by
          have := hgp.1.1.subset hs2
          exact ((mem_removeNode_nodes h p s).mp this).2
        have hnedge : (s, p) ∉ h.edges := by
          intro hc
          exact hnotgp ((mem_predecessors h p s).mpr hc)
        have := successors_removeNode_of_not_edge h s p hsne hnedge
        rw [← this]
        exact hsuccr
      · intro q hq
        rcases List.mem_cons.mp hq with rfl | hq2
        · intro hc
          have hc2 := hrest.1.1.subset hc
          have hc3 := hgp.1.1.subset hc2
          exact not_mem_removeNode_self h q hc3
        · exact hrest.2.2.1 q hq2
      · intro hE
        exact hrest.2.2.2.1 (hgp.2.2.1 (eclosed_removeNode hE p))
      · rintro ⟨hB, hl⟩
        intro a y ha he
        have hlp : isPkgNode p = true := hl p (List.mem_cons_self _ _)
        have ha2 : RNode.pkg a ∈ ((predecessors h p).foldl (pruneNode n)
            (removeNode h p)).nodes := hrest.1.1.subset ha
        have hane : RNode.pkg a ≠ p :=
          ((mem_removeNode_nodes h p _).mp (hgp.1.1.subset ha2)).2
        have hyspec : isSpecNode y = true := by
          rcases hB (RNode.pkg a, y) he with ⟨h1, _⟩ | ⟨_, h2⟩
          · simp [isSpecNode] at h1
          · exact h2
        have hyne : y ≠ p := by
          intro hc
          exact node_not_both p (hc ▸ hyspec) hlp
        have he1 : (RNode.pkg a, y) ∈ (removeNode h p).edges :=
          (mem_removeNode_edges h p _).mpr ⟨he, hane, hyne⟩
        have hB1 : Bip (removeNode h p) :=
          bip_of_edges_sublist hB (removeNode_edges_sublist h p)
        have he2 := hgp.2.2.2 hB1 a y ha2 he1
        have hB2 : Bip ((predecessors h p).foldl (pruneNode n) (removeNode h p)) :=
          bip_of_edges_sublist hB hsube2
        exact hrest.2.2.2.2 ⟨hB2, fun q hq => hl q (List.mem_cons_of_mem _ hq)⟩ a y ha he2
    · -- the parent was already removed: skip it
      have hfold : pruneParentsFold n h (p :: t) = pruneParentsFold n h t := by
        simp only [pruneParentsFold, List.foldl_cons, hp]
        simp
      rw [hfold]
      have hrest := ih h hlen
      refine ⟨hrest.1, hrest.2.1, ?_, hrest.2.2.2.1, ?_⟩
      · intro q hq
        rcases List.mem_cons.mp hq with rfl | hq2
        · intro hc
          have : q ∈ h.nodes := hrest.1.1.subset hc
          exact hp ((contains_iff_mem _ _).mpr this)
        · exact hrest.2.2.1 q hq2
      · rintro ⟨hB, hl⟩
        exact hrest.2.2.2.2 ⟨hB, fun q hq => hl q (List.mem_cons_of_mem _ hq)⟩

theorem pruneNode_main : ∀ (n : Nat) (g : DiGraph) (x : RNode),
    g.nodes.length ≤ n → PruneMainP n g x := by
  intro n
  induction n with
  | zero =>
    intro g x hg
    have hnil : g.nodes = [] := List.length_eq_zero.mp (Nat.le_zero.mp hg)
    refine ⟨⟨List.Sublist.refl _, List.Sublist.refl _⟩, ?_, fun hE => hE, fun _ => ?_⟩
    · intro s hs _ _
      have hs2 : s ∈ g.nodes := hs
      rw [hnil] at hs2
      exact absurd hs2 (List.not_mem_nil s)
    · intro a y ha he
      exact he
  | succ n ihn =>
    intro g x hg
    by_cases h1 : isSpecNode x = true
    · by_cases h2 : g.nodes.contains x = true
      · by_cases h3 : (successors g x).isEmpty = true
        · -- the node is an unsatisfied present spec: it is removed, and each
          -- package that depended on it is removed with a recursive re-check
          have hmemx : x ∈ g.nodes := (contains_iff_mem _ _).mp h2
          have heq : pruneNode (Nat.succ n) g x =
              pruneParentsFold n (removeNode g x) (predecessors g x) := by
            rw [pruneNode_succ_eq]
            simp [h1, h2, h3, hmemx]
          have hlen1 : (removeNode g x).nodes.length ≤ n := by
            have := length_removeNode_lt g x hmemx
            omega
          have hpar := prune_parfold n ihn (predecessors g x) (removeNode g x)
            (le_trans hlen1 (Nat.le_succ n))
          rw [PruneMainP, heq]
          refine ⟨⟨hpar.1.1.trans (removeNode_nodes_sublist g x),
                   hpar.1.2.trans (removeNode_edges_sublist g x)⟩, ?_, ?_, ?_⟩
          · intro s hs hspec hsucc
            have hsr := hpar.2.1 s hs hspec hsucc
            have hsnp : s ∉ predecessors g x := fun hc => hpar.2.2.1 s hc hs
            have hsne : s ≠ x :=
              ((mem_removeNode_nodes g x s).mp (hpar.1.1.subset hs)).2
            have hnedge : (s, x) ∉ g.edges := by
              intro hc
              exact hsnp ((mem_predecessors g x s).mpr hc)
            have hrw := successors_removeNode_of_not_edge g s x hsne hnedge
            exact ⟨hrw ▸ hsr, hsne⟩
          · intro hE
            exact hpar.2.2.2.1 (eclosed_removeNode hE x)
          · intro hB
            intro a y ha he
            have hyne : y ≠ x := by
              intro hc
              subst hc
              exact hpar.2.2.1 (RNode.pkg a) ((mem_predecessors g y _).mpr he) ha
            have hane : RNode.pkg a ≠ x := by
              intro hc
              rw [← hc] at h1
              simp [isSpecNode] at h1
            have he1 : (RNode.pkg a, y) ∈ (removeNode g x).edges :=
              (mem_removeNode_edges g x _).mpr ⟨he, hane, hyne⟩
            have hppkg : ∀ q ∈ predecessors g x, isPkgNode q = true := by
              intro q hq
              have hqe := (mem_predecessors g x q).mp hq
              rcases hB (q, x) hqe with ⟨_, hpkgx⟩ | ⟨hq2, _⟩
              · exact (node_not_both x h1 hpkgx).elim
              · exact hq2
            have hB1 : Bip (removeNode g x) :=
              bip_of_edges_sublist hB (removeNode_edges_sublist g x)
            exact hpar.2.2.2.2 ⟨hB1, hppkg⟩ a y ha he1
        · -- the spec is satisfied: nothing happens
          have heq : pruneNode (Nat.succ n) g x = g := by
            rw [pruneNode_succ_eq]
            simp [h1, h2, h3]
          rw [PruneMainP, heq]
          refine ⟨⟨List.Sublist.refl _, List.Sublist.refl _⟩, ?_, fun hE => hE,
            fun _ => fun a y _ he => he⟩
          intro s hs hspec hsucc
          refine ⟨hsucc, ?_⟩
          intro hc
          subst hc
          rw [hsucc] at h3
          exact h3 rfl
      · -- the node is no longer in the graph: nothing happens
        have hnotmem : x ∉ g.nodes := fun hc => h2 ((contains_iff_mem _ _).mpr hc)
        have heq : pruneNode (Nat.succ n) g x = g := by
          rw [pruneNode_succ_eq]
          simp [h1, hnotmem]
        rw [PruneMainP, heq]
        refine ⟨⟨List.Sublist.refl _, List.Sublist.refl _⟩, ?_, fun hE => hE,
          fun _ => fun a y _ he => he⟩
        intro s hs hspec hsucc
        refine ⟨hsucc, ?_⟩
        intro hc
        subst hc
        exact h2 ((contains_iff_mem _ _).mpr hs)
    · -- the node is a package: nothing happens
      have heq : pruneNode (Nat.succ n) g x = g := by
        rw [pruneNode_succ_eq]
        simp [h1]
      rw [PruneMainP, heq]
      refine ⟨⟨List.Sublist.refl _, List.Sublist.refl _⟩, ?_, fun hE => hE,
        fun _ => fun a y _ he => he⟩
      intro s hs hspec hsucc
      refine ⟨hsucc, ?_⟩
      intro hc
      subst hc
      exact h1 hspec

theorem prune_scan_spec (F : Nat) (order : List RNode) (g : DiGraph)
    (hlen : g.nodes.length ≤ F) :
    PruneShrinks g (pruneScan F g order) ∧
    (∀ s, s ∈ (pruneScan F g order).nodes → isSpecNode s = true →
      successors (pruneScan F g order) s = [] →
      successors g s = [] ∧ s ∉ order) ∧
    (EClosed g → EClosed (pruneScan F g order)) ∧
    (Bip g → PrunePkgEdgeKeep g (pruneScan F g order)) :=
  prune_gpfold F (fun g x h => pruneNode_main F g x h) order g hlen

theorem pass1With_spec (sord : List RNode → List RNode) (g : DiGraph) :
    PruneShrinks g (pass1With sord g) ∧
    (EClosed g → EClosed (pass1With sord g)) ∧
    (Bip g → PrunePkgEdgeKeep g (pass1With sord g)) ∧
    ((∀ nd ∈ g.nodes, nd ∈ sord g.nodes) →
      ∀ s, s ∈ (pass1With sord g).nodes → isSpecNode s = true →
        successors (pass1With sord g) s ≠ []) := by
  have h := prune_scan_spec g.nodes.length (sord g.nodes) g (le_refl _)
  refine ⟨h.1, h.2.2.1, h.2.2.2, ?_⟩
  intro hcov s hs hspec hnil
  obtain ⟨_, hnot⟩ := h.2.1 s hs hspec hnil
  exact hnot (hcov s (h.1.1.subset hs))

/-! Lemmas about closure computation and Pass 2. -/

theorem mem_foldl_union {α β : Type} [DecidableEq β] (f : α → List β) (l : List α)
    (a : List β) (x : β) :
    x ∈ l.foldl (fun acc u => (f u).foldl insertAbs acc) a ↔
      x ∈ a ∨ ∃ u ∈ l, x ∈ f u := by
  induction l generalizing a with
  | nil => simp
  | cons u t ih =>
    rw [List.foldl_cons, ih, mem_foldl_insertAbs]
    constructor
    · rintro ((hx | hfx) | ⟨v, hv, hfv⟩)
      · exact Or.inl hx
      · exact Or.inr ⟨u, List.mem_cons_self _ _, hfx⟩
      · exact Or.inr ⟨v, List.mem_cons_of_mem _ hv, hfv⟩
    · rintro (hx | ⟨v, hv, hfv⟩)
      · exact Or.inl (Or.inl hx)
      · rcases List.mem_cons.mp hv with rfl | hv2
        · exact Or.inl (Or.inr hfv)
        · exact Or.inr ⟨v, hv2, hfv⟩

theorem foldl_union_nodup {α β : Type} [DecidableEq β] (f : α → List β) :
    ∀ (l : List α) (a : List β), a.Nodup →
      (l.foldl (fun acc u => (f u).foldl insertAbs acc) a).Nodup := by
  intro l
  induction l with
  | nil => intro a h; exact h
  | cons u t ih =>
    intro a h
    exact ih _ (foldl_insertAbs_nodup (f u) a h)

theorem foldl_union_append {α β : Type} [DecidableEq β] (f : α → List β) :
    ∀ (l : List α) (a : List β),
      ∃ extra, l.foldl (fun acc u => (f u).foldl insertAbs acc) a = a ++ extra ∧
        ∀ x ∈ extra, x ∉ a := by
  intro l
  induction l with
  | nil => intro a; exact ⟨[], by simp⟩
  | cons u t ih =>
    intro a
    obtain ⟨e1, he1, hx1⟩ := foldl_insertAbs_append (f u) a
    obtain ⟨e2, he2, hx2⟩ := ih (a ++ e1)
    refine ⟨e1 ++ e2, ?_, ?_⟩
    · rw [List.foldl_cons, he1, he2, List.append_assoc]
    · intro x hx
      rcases List.mem_append.mp hx with hxe | hxe
      · exact (hx1 x hxe).2
      · intro hc
        exact hx2 x hxe (List.mem_append.mpr (Or.inl hc))

theorem mem_stepClosure (g : DiGraph) (vs : List RNode) (x : RNode) :
    x ∈ stepClosure g vs ↔ x ∈ vs ∨ ∃ u ∈ vs, x ∈ successors g u :=
  mem_foldl_union (successors g) vs vs x

theorem stepClosure_fix_closed {g : DiGraph} {vs : List RNode}
    (h : stepClosure g vs = vs) :
    ∀ u ∈ vs, ∀ v, (u, v) ∈ g.edges → v ∈ vs := by
  intro u hu v he
  have hv : v ∈ stepClosure g vs :=
    (mem_stepClosure g vs v).mpr (Or.inr ⟨u, hu, (mem_successors g u v).mpr he⟩)
  rwa [h] at hv

theorem reachIter_of_fix {g : DiGraph} {vs : List RNode}
    (h : stepClosure g vs = vs) : ∀ n, reachIter g n vs = vs := by
  intro n
  induction n with
  | zero => rfl
  | succ n ih => rw [reachIter, h]; exact ih

theorem subset_reachIter (g : DiGraph) : ∀ (n : Nat) (vs : List RNode) (x : RNode),
    x ∈ vs → x ∈ reachIter g n vs := by
  intro n
  induction n with
  | zero => intro vs x hx; exact hx
  | succ n ih =>
    intro vs x hx
    exact ih (stepClosure g vs) x ((mem_stepClosure g vs x).mpr (Or.inl hx))

theorem reachIter_closed (g : DiGraph) (U : List RNode)
    (htgt : ∀ e ∈ g.edges, e.2 ∈ U) :
    ∀ (n : Nat) (vs : List RNode), vs.Nodup → (∀ x ∈ vs, x ∈ U) →
      U.toFinset.card ≤ vs.toFinset.card + n →
      ∀ u ∈ reachIter g n vs, ∀ v, (u, v) ∈ g.edges → v ∈ reachIter g n vs := by
  intro n
  induction n with
  | zero =>
    intro vs hnd hsub hcard u hu v he
    by_contra hv
    have hvU : v ∈ U := htgt (u, v) he
    have hins : insert v vs.toFinset ⊆ U.toFinset := by
      intro y hy
      rcases Finset.mem_insert.mp hy with rfl | hy2
      · exact List.mem_toFinset.mpr hvU
      · exact List.mem_toFinset.mpr (hsub y (List.mem_toFinset.mp hy2))
    have hvnot : v ∉ vs.toFinset := fun hc => hv (List.mem_toFinset.mp hc)
    have := Finset.card_le_card hins
    rw [Finset.card_insert_of_not_mem hvnot] at this
    omega
  | succ n ih =>
    intro vs hnd hsub hcard
    by_cases hfix : stepClosure g vs = vs
    · have hiter : reachIter g (Nat.succ n) vs = vs := reachIter_of_fix hfix _
      rw [hiter]
      exact stepClosure_fix_closed hfix
    · have hstep : reachIter g (Nat.succ n) vs = reachIter g n (stepClosure g vs) := rfl
      rw [hstep]
      have hnd2 : (stepClosure g vs).Nodup := foldl_union_nodup _ vs vs hnd
      have hsub2 : ∀ x ∈ stepClosure g vs, x ∈ U := by
        intro x hx
        rcases (mem_stepClosure g vs x).mp hx with hx2 | ⟨u, hu, hsx⟩
        · exact hsub x hx2
        · exact htgt (u, x) ((mem_successors g u x).mp hsx)
      have hgrow : vs.toFinset.card + 1 ≤ (stepClosure g vs).toFinset.card := by
        obtain ⟨extra, hex, hxa⟩ := foldl_union_append (successors g) vs vs
        have hscl : stepClosure g vs = vs ++ extra := hex
        cases extra with
        | nil => exact absurd (by simpa using hscl) hfix
        | cons y ys =>
          have hy1 : y ∈ stepClosure g vs := by
            rw [hscl]; exact List.mem_append.mpr (Or.inr (List.mem_cons_self _ _))
          have hy2 : y ∉ vs := hxa y (List.mem_cons_self _ _)
          have hss : vs.toFinset ⊂ (stepClosure g vs).toFinset := by
            refine Finset.ssubset_iff_of_subset ?_ |>.mpr ?_
            · intro z hz
              exact List.mem_toFinset.mpr
                ((mem_stepClosure g vs z).mpr (Or.inl (List.mem_toFinset.mp hz)))
            · exact ⟨y, List.mem_toFinset.mpr hy1, fun hc => hy2 (List.mem_toFinset.mp hc)⟩
          exact Finset.card_lt_card hss
      exact ih (stepClosure g vs) hnd2 hsub2 (by omega)

theorem reachSet_closed (g : DiGraph) (source : RNode) :
    ∀ u ∈ reachSet g source, ∀ v, (u, v) ∈ g.edges → v ∈ reachSet g source := by
  have htgt : ∀ e ∈ g.edges, e.2 ∈ source :: g.edges.map Prod.snd := by
    intro e he
    exact List.mem_cons_of_mem _ (List.mem_map.mpr ⟨e, he, rfl⟩)
  have hcard : (source :: g.edges.map Prod.snd).toFinset.card ≤
      ([source] : List RNode).toFinset.card + g.edges.length := by
    have h1 := List.toFinset_card_le (source :: g.edges.map Prod.snd)
    have h2 : (source :: g.edges.map Prod.snd).length = g.edges.length + 1 := by
      simp
    rw [h2] at h1
    have h3 : ([source] : List RNode).toFinset.card = 1 := by simp
    omega
  exact reachIter_closed g (source :: g.edges.map Prod.snd) htgt g.edges.length
    [source] (List.nodup_singleton source)
    (fun x hx => by rcases List.mem_singleton.mp hx with rfl; exact List.mem_cons_self _ _)
    hcard

theorem mem_reachSet_self (g : DiGraph) (source : RNode) :
    source ∈ reachSet g source :=
  subset_reachIter g g.edges.length [source] source (List.mem_singleton.mpr rfl)

theorem reachSet_sound (g : DiGraph) (source : RNode) :
    ∀ x ∈ reachSet g source, Reaches g source x := by
  have hgen : ∀ (n : Nat) (vs : List RNode), (∀ y ∈ vs, Reaches g source y) →
      ∀ x ∈ reachIter g n vs, Reaches g source x := by
    intro n
    induction n with
    | zero => intro vs hvs x hx; exact hvs x hx
    | succ n ih =>
      intro vs hvs x hx
      refine ih (stepClosure g vs) ?_ x hx
      intro y hy
      rcases (mem_stepClosure g vs y).mp hy with hy2 | ⟨u, hu, hsy⟩
      · exact hvs y hy2
      · exact Relation.ReflTransGen.tail (hvs u hu) ((mem_successors g u y).mp hsy)
  intro x hx
  refine hgen g.edges.length [source] ?_ x hx
  intro y hy
  rcases List.mem_singleton.mp hy with rfl
  exact Relation.ReflTransGen.refl

theorem reachSet_complete (g : DiGraph) (source x : RNode)
    (h : Reaches g source x) : x ∈ reachSet g source := by
  induction h with
  | refl => exact mem_reachSet_self g source
  | tail _ he ih => exact reachSet_closed g source _ ih _ he

theorem mem_connectedSet (g : DiGraph) (roots : List String) (x : RNode) :
    x ∈ connectedSet g roots ↔ ∃ r ∈ roots, x ∈ reachSet g (RNode.spec r) := by
  have h := mem_foldl_union (fun r => reachSet g (RNode.spec r)) roots [] x
  simpa [connectedSet] using h

theorem connectedSet_closed (g : DiGraph) (roots : List String) :
    ∀ u ∈ connectedSet g roots, ∀ v, (u, v) ∈ g.edges → v ∈ connectedSet g roots := by
  intro u hu v he
  obtain ⟨r, hr, hu2⟩ := (mem_connectedSet g roots u).mp hu
  exact (mem_connectedSet g roots v).mpr ⟨r, hr, reachSet_closed g _ u hu2 v he⟩

theorem foldl_removeNode_nodes : ∀ (D : List RNode) (g : DiGraph) (m : RNode),
    m ∈ (D.foldl removeNode g).nodes ↔ m ∈ g.nodes ∧ m ∉ D := by
  intro D
  induction D with
  | nil => intro g m; simp
  | cons d t ih =>
    intro g m
    rw [List.foldl_cons, ih, mem_removeNode_nodes]
    constructor
    · rintro ⟨⟨hm, hne⟩, hnt⟩
      refine ⟨hm, ?_⟩
      intro hc
      rcases List.mem_cons.mp hc with rfl | hc2
      · exact hne rfl
      · exact hnt hc2
    · rintro ⟨hm, hnd⟩
      refine ⟨⟨hm, fun hc => hnd (hc ▸ List.mem_cons_self _ _)⟩, fun hc =>
        hnd (List.mem_cons_of_mem _ hc)⟩

theorem foldl_removeNode_edges : ∀ (D : List RNode) (g : DiGraph) (e : RNode × RNode),
    e ∈ (D.foldl removeNode g).edges ↔ e ∈ g.edges ∧ e.1 ∉ D ∧ e.2 ∉ D := by
  intro D
  induction D with
  | nil => intro g e; simp
  | cons d t ih =>
    intro g e
    rw [List.foldl_cons, ih, mem_removeNode_edges]
    constructor
    · rintro ⟨⟨he, h1, h2⟩, h3, h4⟩
      refine ⟨he, ?_, ?_⟩
      · intro hc
        rcases List.mem_cons.mp hc with hcd | hc2
        · exact h1 hcd
        · exact h3 hc2
      · intro hc
        rcases List.mem_cons.mp hc with hcd | hc2
        · exact h2 hcd
        · exact h4 hc2
    · rintro ⟨he, h1, h2⟩
      exact ⟨⟨he, fun hc => h1 (hc ▸ List.mem_cons_self _ _),
        fun hc => h2 (hc ▸ List.mem_cons_self _ _)⟩,
        fun hc => h1 (List.mem_cons_of_mem _ hc),
        fun hc => h2 (List.mem_cons_of_mem _ hc)⟩

theorem mem_pass2_nodes (g : DiGraph) (roots : List String) (m : RNode) :
    m ∈ (pass2 g roots).nodes ↔ m ∈ g.nodes ∧ m ∈ connectedSet g roots := by
  unfold pass2
  rw [foldl_removeNode_nodes]
  constructor
  · rintro ⟨hm, hnot⟩
    refine ⟨hm, ?_⟩
    by_contra hc
    refine hnot (List.mem_filter.mpr ⟨hm, ?_⟩)
    simp only [Bool.not_eq_true']
    exact (Bool.not_eq_true _).mp
      (fun h => hc ((contains_iff_mem _ _).mp h))
  · rintro ⟨hm, hconn⟩
    refine ⟨hm, ?_⟩
    intro hc
    have := (List.mem_filter.mp hc).2
    simp only [Bool.not_eq_true'] at this
    rw [← contains_iff_mem (connectedSet g roots) m] at hconn
    rw [this] at hconn
    cases hconn

theorem pass2_edge_intro (g : DiGraph) (roots : List String) (e : RNode × RNode)
    (he : e ∈ g.edges) (h1 : e.1 ∈ connectedSet g roots)
    (h2 : e.2 ∈ connectedSet g roots) : e ∈ (pass2 g roots).edges := by
  unfold pass2
  rw [foldl_removeNode_edges]
  refine ⟨he, ?_, ?_⟩
  · intro hc
    have := (List.mem_filter.mp hc).2
    simp only [Bool.not_eq_true'] at this
    rw [← contains_iff_mem (connectedSet g roots) e.1] at h1
    rw [this] at h1
    cases h1
  · intro hc
    have := (List.mem_filter.mp hc).2
    simp only [Bool.not_eq_true'] at this
    rw [← contains_iff_mem (connectedSet g roots) e.2] at h2
    rw [this] at h2
    cases h2

theorem pass2_edge_elim (g : DiGraph) (roots : List String) (e : RNode × RNode)
    (he : e ∈ (pass2 g roots).edges) :
    e ∈ g.edges ∧ (e.1 ∈ g.nodes → e.1 ∈ connectedSet g roots) ∧
      (e.2 ∈ g.nodes → e.2 ∈ connectedSet g roots) := by
  unfold pass2 at he
  rw [foldl_removeNode_edges] at he
  obtain ⟨heg, h1, h2⟩ := he
  refine ⟨heg, ?_, ?_⟩
  · intro hm
    by_contra hc
    refine h1 (List.mem_filter.mpr ⟨hm, ?_⟩)
    simp only [Bool.not_eq_true']
    exact (Bool.not_eq_true _).mp (fun h => hc ((contains_iff_mem _ _).mp h))
  · intro hm
    by_contra hc
    refine h2 (List.mem_filter.mpr ⟨hm, ?_⟩)
    simp only [Bool.not_eq_true']
    exact (Bool.not_eq_true _).mp (fun h => hc ((contains_iff_mem _ _).mp h))

theorem foldl_removeNode_edges_sublist :
    ∀ (D : List RNode) (g : DiGraph), (D.foldl removeNode g).edges.Sublist g.edges := by
  intro D
  induction D with
  | nil => intro g; exact List.Sublist.refl _
  | cons d t ih =>
    intro g
    rw [List.foldl_cons]
    exact (ih (removeNode g d)).trans (removeNode_edges_sublist g d)

theorem foldl_removeNode_nodes_sublist :
    ∀ (D : List RNode) (g : DiGraph), (D.foldl removeNode g).nodes.Sublist g.nodes := by
  intro D
  induction D with
  | nil => intro g; exact List.Sublist.refl _
  | cons d t ih =>
    intro g
    rw [List.foldl_cons]
    exact (ih (removeNode g d)).trans (removeNode_nodes_sublist g d)

theorem pass2_edges_sublist (g : DiGraph) (roots : List String) :
    (pass2 g roots).edges.Sublist g.edges :=
  foldl_removeNode_edges_sublist _ g

theorem pass2_nodes_sublist (g : DiGraph) (roots : List String) :
    (pass2 g roots).nodes.Sublist g.nodes :=
  foldl_removeNode_nodes_sublist _ g

/-! Lemmas about graph construction. -/

theorem mem_addNode_nodes (g : DiGraph) (n m : RNode) :
    m ∈ (addNode g n).nodes ↔ m ∈ g.nodes ∨ m = n :=
  mem_insertAbs g.nodes n m

theorem addNode_edges (g : DiGraph) (n : RNode) : (addNode g n).edges = g.edges := rfl

theorem mem_addEdge_edges (g : DiGraph) (a b : RNode) (e : RNode × RNode) :
    e ∈ (addEdge g a b).edges ↔ e ∈ g.edges ∨ e = (a, b) :=
  mem_insertAbs g.edges (a, b) e

theorem mem_addEdge_nodes (g : DiGraph) (a b m : RNode) :
    m ∈ (addEdge g a b).nodes ↔ m ∈ g.nodes ∨ m = a ∨ m = b := by
  rw [show (addEdge g a b).nodes = insertAbs (insertAbs g.nodes a) b from rfl,
    mem_insertAbs, mem_insertAbs]
  tauto

theorem resolverQuery_subset_index (U : SpecUniverse) (ch : Channel) (P : Parameters)
    (s : String) (p : CondaPackage) (h : p ∈ resolverQuery U ch P s) : p ∈ ch.index :=
  (List.mem_filter.mp ((List.mem_filter.mp h).1)).1

theorem resolverQuery_not_constrained (U : SpecUniverse) (ch : Channel) (P : Parameters)
    (s : String) (p : CondaPackage) (h : p ∈ resolverQuery U ch P s) :
    is_constrained U P p = false := by
  have := (List.mem_filter.mp h).2
  simpa using this

theorem resolverQuery_matches (U : SpecUniverse) (ch : Channel) (P : Parameters)
    (s : String) (p : CondaPackage) (h : p ∈ resolverQuery U ch P s) :
    U.specMatch s p = true := by
  have := (List.mem_filter.mp ((List.mem_filter.mp h).1)).2
  exact (Bool.and_eq_true _ _ |>.mp this).2

theorem depend_mem_universe (ch : Channel) (P : Parameters) (package : CondaPackage)
    (hpkg : package ∈ ch.index) (d : String) (hd : d ∈ package.depends) :
    d ∈ specStringUniverse ch P := by
  refine (mem_dedupList _ d).mpr ?_
  exact List.mem_append.mpr (Or.inr (List.mem_flatMap.mpr ⟨package, hpkg, hd⟩))

theorem requirement_mem_universe (ch : Channel) (P : Parameters) (s : String)
    (hs : s ∈ P.requirements) : s ∈ specStringUniverse ch P :=
  (mem_dedupList _ s).mpr (List.mem_append.mpr (Or.inl hs))

theorem nodup_get_not_mem_eraseIdx {α : Type} [DecidableEq α] (l : List α)
    (hnd : l.Nodup) (i : Nat) (hi : i < l.length) :
    l.get ⟨i, hi⟩ ∉ l.eraseIdx i := by
  intro hc
  obtain ⟨j, hj, hne, heq⟩ := List.mem_eraseIdx_iff_getElem.mp hc
  have hinj := List.nodup_iff_injective_get.mp hnd
  have : (⟨j, hj⟩ : Fin l.length) = ⟨i, hi⟩ := by
    apply hinj
    simpa [List.get_eq_getElem] using heq
  exact hne (by simpa using congrArg Fin.val this)

theorem processDepend_fold (U : SpecUniverse) (ch : Channel) (P : Parameters)
    (package : CondaPackage) (hpkg : package ∈ ch.index) :
    ∀ (l : List String) (st : ConstructState),
      (∀ d ∈ l, d ∈ package.depends) →
      RNode.pkg package ∈ st.graph.nodes →
      GraphInvCore U ch P st.graph →
      WorkInv ch P st →
      GraphInvCore U ch P (l.foldl (processDepend package) st).graph ∧
      WorkInv ch P (l.foldl (processDepend package) st) ∧
      (∀ m ∈ st.graph.nodes, m ∈ (l.foldl (processDepend package) st).graph.nodes) ∧
      (∀ e ∈ st.graph.edges, e ∈ (l.foldl (processDepend package) st).graph.edges) ∧
      (∀ d ∈ l, (RNode.pkg package, RNode.spec d) ∈
        (l.foldl (processDepend package) st).graph.edges) ∧
      (∀ q : CondaPackage, RNode.pkg q ∈ (l.foldl (processDepend package) st).graph.nodes →
        RNode.pkg q ∈ st.graph.nodes) ∧
      (l.foldl (processDepend package) st).processed = st.processed := by
  intro l
  induction l with
  | nil =>
    intro st _ hmem hG hW
    exact ⟨hG, hW, fun m hm => hm, fun e he => he, fun d hd => absurd hd (List.not_mem_nil d),
      fun q hq => hq, rfl⟩
  | cons d t ih =>
    intro st hl hmem hG hW
    -- one processDepend step
    have hd : d ∈ package.depends := hl d (List.mem_cons_self _ _)
    have hnodes1 : ∀ m, m ∈ (processDepend package st d).graph.nodes ↔
        m ∈ st.graph.nodes ∨ m = RNode.spec d ∨ m = RNode.pkg package := by
      intro m
      show m ∈ (addEdge _ (RNode.pkg package) (RNode.spec d)).nodes ↔ _
      rw [mem_addEdge_nodes]
      by_cases hc : st.graph.nodes.contains (RNode.spec d) = true
      · have hmemd := (contains_iff_mem _ _).mp hc
        simp only [processDepend, hc, if_pos]
        constructor
        · rintro (hm | rfl | rfl)
          · exact Or.inl hm
          · exact Or.inr (Or.inr rfl)
          · exact Or.inr (Or.inl rfl)
        · rintro (hm | rfl | rfl)
          · exact Or.inl hm
          · exact Or.inr (Or.inr rfl)
          · exact Or.inr (Or.inl rfl)
      · simp only [processDepend, hc]
        rw [show (if (false : Bool) = true then st.graph else addNode st.graph (RNode.spec d))
          = addNode st.graph (RNode.spec d) by simp]
        rw [mem_addNode_nodes]
        tauto
    have hedges1 : ∀ e, e ∈ (processDepend package st d).graph.edges ↔
        e ∈ st.graph.edges ∨ e = (RNode.pkg package, RNode.spec d) := by
      intro e
      show e ∈ (addEdge _ (RNode.pkg package) (RNode.spec d)).edges ↔ _
      rw [mem_addEdge_edges]
      by_cases hc : st.graph.nodes.contains (RNode.spec d) = true
      · have hmemd := (contains_iff_mem _ _).mp hc
        simp [processDepend, hmemd]
      · have hmemd : RNode.spec d ∉ st.graph.nodes :=
          fun h => hc ((contains_iff_mem _ _).mpr h)
        simp [processDepend, hmemd, addNode_edges]
    have hG1 : GraphInvCore U ch P (processDepend package st d).graph := by
      obtain ⟨hE, hB, hshape, horig⟩ := hG
      refine ⟨?_, ?_, ?_, ?_⟩
      · intro e he
        rcases (hedges1 e).mp he with he2 | rfl
        · obtain ⟨h1, h2⟩ := hE e he2
          exact ⟨(hnodes1 _).mpr (Or.inl h1), (hnodes1 _).mpr (Or.inl h2)⟩
        · exact ⟨(hnodes1 _).mpr (Or.inr (Or.inr rfl)),
            (hnodes1 _).mpr (Or.inr (Or.inl rfl))⟩
      · intro e he
        rcases (hedges1 e).mp he with he2 | rfl
        · exact hB e he2
        · exact Or.inr ⟨rfl, rfl⟩
      · intro e he
        rcases (hedges1 e).mp he with he2 | rfl
        · exact hshape e he2
        · exact Or.inr ⟨package, d, rfl, hd⟩
      · intro q hq
        rcases (hnodes1 _).mp hq with hq2 | hq2 | hq2
        · exact horig q hq2
        · cases hq2
        · have hqp : q = package := by
            injection hq2 with h
          exact hqp ▸ horig package hmem
    have hW1 : WorkInv ch P (processDepend package st d) := by
      obtain ⟨hnd, hdisj, htu, hpu, htr, hpnd⟩ := hW
      have hproc : (processDepend package st d).processed = st.processed := rfl
      have htrace : (processDepend package st d).trace = st.trace := rfl
      by_cases hpd : st.processed.contains d = true
      · have htp : (processDepend package st d).toProcess = st.toProcess := by
          simp [processDepend, (contains_iff_mem _ _).mp hpd]
        rw [WorkInv, htp, hproc, htrace]
        exact ⟨hnd, hdisj, htu, hpu, htr, hpnd⟩
      · have htp : (processDepend package st d).toProcess = insertAbs st.toProcess d := by
          have hdnp2 : d ∉ st.processed := fun h => hpd ((contains_iff_mem _ _).mpr h)
          simp [processDepend, hdnp2]
        have hdnp : d ∉ st.processed :=
          fun hc2 => hpd ((contains_iff_mem _ _).mpr hc2)
        rw [WorkInv, htp, hproc, htrace]
        refine ⟨insertAbs_nodup hnd d, ?_, ?_, hpu, htr, hpnd⟩
        · intro s hs
          rcases (mem_insertAbs _ _ _).mp hs with hs2 | rfl
          · exact hdisj s hs2
          · exact hdnp
        · intro s hs
          rcases (mem_insertAbs _ _ _).mp hs with hs2 | rfl
          · exact htu s hs2
          · exact depend_mem_universe ch P package hpkg s hd
    have hmem1 : RNode.pkg package ∈ (processDepend package st d).graph.nodes :=
      (hnodes1 _).mpr (Or.inr (Or.inr rfl))
    have hrest := ih (processDepend package st d) (fun x hx => hl x (List.mem_cons_of_mem _ hx))
      hmem1 hG1 hW1
    have hfold : (d :: t).foldl (processDepend package) st =
        t.foldl (processDepend package) (processDepend package st d) := by
      rw [List.foldl_cons]
    rw [hfold]
    refine ⟨hrest.1, hrest.2.1, ?_, ?_, ?_, ?_, hrest.2.2.2.2.2.2⟩
    · intro m hm
      exact hrest.2.2.1 m ((hnodes1 m).mpr (Or.inl hm))
    · intro e he
      exact hrest.2.2.2.1 e ((hedges1 e).mpr (Or.inl he))
    · intro x hx
      rcases List.mem_cons.mp hx with rfl | hx2
      · exact hrest.2.2.2.1 _ ((hedges1 _).mpr (Or.inr rfl))
      · exact hrest.2.2.2.2.1 x hx2
    · intro q hq
      have hq1 := hrest.2.2.2.2.2.1 q hq
      rcases (hnodes1 _).mp hq1 with hq2 | hq2 | hq2
      · exact hq2
      · cases hq2
      · have hqp : q = package := by injection hq2 with h
        exact hqp ▸ hmem

theorem processPackage_inv (U : SpecUniverse) (ch : Channel) (P : Parameters)
    (s : String) (package : CondaPackage) (hq : package ∈ resolverQuery U ch P s)
    (st : ConstructState) (hG : GraphInv U ch P st.graph) (hW : WorkInv ch P st) :
    GraphInv U ch P (processPackage s st package).graph ∧
    WorkInv ch P (processPackage s st package) ∧
    (∀ m ∈ st.graph.nodes, m ∈ (processPackage s st package).graph.nodes) ∧
    (∀ e ∈ st.graph.edges, e ∈ (processPackage s st package).graph.edges) ∧
    (processPackage s st package).processed = st.processed := by
  set g2 := addEdge (if st.graph.nodes.contains (RNode.pkg package) then st.graph
    else addNode st.graph (RNode.pkg package)) (RNode.spec s) (RNode.pkg package) with hg2
  have heq : processPackage s st package =
      package.depends.foldl (processDepend package) { st with graph := g2 } := rfl
  have hnodes2 : ∀ m, m ∈ g2.nodes ↔
      m ∈ st.graph.nodes ∨ m = RNode.spec s ∨ m = RNode.pkg package := by
    intro m
    rw [hg2, mem_addEdge_nodes]
    by_cases hc : st.graph.nodes.contains (RNode.pkg package) = true
    · rw [if_pos hc]
    · rw [if_neg hc, mem_addNode_nodes]
      tauto
  have hedges2 : ∀ e, e ∈ g2.edges ↔
      e ∈ st.graph.edges ∨ e = (RNode.spec s, RNode.pkg package) := by
    intro e
    rw [hg2, mem_addEdge_edges]
    by_cases hc : st.graph.nodes.contains (RNode.pkg package) = true
    · rw [if_pos hc]
    · rw [if_neg hc, addNode_edges]
  obtain ⟨⟨hE, hB, hshape, horig⟩, hDeps⟩ := hG
  have hGcore2 : GraphInvCore U ch P g2 := by
    refine ⟨?_, ?_, ?_, ?_⟩
    · intro e he
      rcases (hedges2 e).mp he with he2 | rfl
      · obtain ⟨h1, h2⟩ := hE e he2
        exact ⟨(hnodes2 _).mpr (Or.inl h1), (hnodes2 _).mpr (Or.inl h2)⟩
      · exact ⟨(hnodes2 _).mpr (Or.inr (Or.inl rfl)),
          (hnodes2 _).mpr (Or.inr (Or.inr rfl))⟩
    · intro e he
      rcases (hedges2 e).mp he with he2 | rfl
      · exact hB e he2
      · exact Or.inl ⟨rfl, rfl⟩
    · intro e he
      rcases (hedges2 e).mp he with he2 | rfl
      · exact hshape e he2
      · exact Or.inl ⟨s, package, rfl, hq⟩
    · intro q hqn
      rcases (hnodes2 _).mp hqn with hq2 | hq2 | hq2
      · exact horig q hq2
      · cases hq2
      · have hqp : q = package := by injection hq2 with h
        exact hqp ▸ ⟨s, hq⟩
  have hW2 : WorkInv ch P { st with graph := g2 } := hW
  have hmem2 : RNode.pkg package ∈ g2.nodes := (hnodes2 _).mpr (Or.inr (Or.inr rfl))
  have hdf := processDepend_fold U ch P package
    (resolverQuery_subset_index U ch P s package hq) package.depends
    { st with graph := g2 } (fun d hd => hd) hmem2 hGcore2 hW2
  rw [heq]
  refine ⟨⟨hdf.1, ?_⟩, hdf.2.1, ?_, ?_, hdf.2.2.2.2.2.2⟩
  · intro q hqn d hd
    have hback := hdf.2.2.2.2.2.1 q hqn
    rcases (hnodes2 _).mp hback with hq2 | hq2 | hq2
    · exact hdf.2.2.2.1 _ ((hedges2 _).mpr (Or.inl (hDeps q hq2 d hd)))
    · cases hq2
    · have hqp : q = package := by injection hq2 with h
      subst hqp
      exact hdf.2.2.2.2.1 d hd
  · intro m hm
    exact hdf.2.2.1 m ((hnodes2 m).mpr (Or.inl hm))
  · intro e he
    exact hdf.2.2.2.1 e ((hedges2 e).mpr (Or.inl he))

theorem processSpec_fold (U : SpecUniverse) (ch : Channel) (P : Parameters) (s : String) :
    ∀ (lq : List CondaPackage) (st : ConstructState),
      (∀ q ∈ lq, q ∈ resolverQuery U ch P s) →
      GraphInv U ch P st.graph → WorkInv ch P st →
      GraphInv U ch P (lq.foldl (processPackage s) st).graph ∧
      WorkInv ch P (lq.foldl (processPackage s) st) ∧
      (∀ m ∈ st.graph.nodes, m ∈ (lq.foldl (processPackage s) st).graph.nodes) ∧
      (lq.foldl (processPackage s) st).processed = st.processed := by
  intro lq
  induction lq with
  | nil =>
    intro st _ hG hW
    exact ⟨hG, hW, fun m hm => hm, rfl⟩
  | cons q t ih =>
    intro st hlq hG hW
    have hstep := processPackage_inv U ch P s q (hlq q (List.mem_cons_self _ _)) st hG hW
    have hrest := ih (processPackage s st q) (fun p hp => hlq p (List.mem_cons_of_mem _ hp))
      hstep.1 hstep.2.1
    rw [List.foldl_cons]
    refine ⟨hrest.1, hrest.2.1, ?_, ?_⟩
    · intro m hm
      exact hrest.2.2.1 m (hstep.2.2.1 m hm)
    · rw [hrest.2.2.2, hstep.2.2.2.2]

theorem processSpec_inv (U : SpecUniverse) (ch : Channel) (P : Parameters)
    (st : ConstructState) (s : String)
    (hG : GraphInv U ch P st.graph) (hW : WorkInv ch P st) :
    GraphInv U ch P (processSpec (resolverQuery U ch P) st s).graph ∧
    WorkInv ch P (processSpec (resolverQuery U ch P) st s) ∧
    (∀ m ∈ st.graph.nodes, m ∈ (processSpec (resolverQuery U ch P) st s).graph.nodes) ∧
    (processSpec (resolverQuery U ch P) st s).processed = st.processed :=
  processSpec_fold U ch P s (resolverQuery U ch P s) st (fun q hq => hq) hG hW

theorem constructLoop_succ_nil (query : String → List CondaPackage)
    (pick : List String → Nat) (n : Nat) (st : ConstructState)
    (htp : st.toProcess = []) :
    constructLoop query pick (Nat.succ n) st = st := by
  rw [constructLoop, htp]

theorem constructLoop_succ_cons (query : String → List CondaPackage)
    (pick : List String → Nat) (n : Nat) (st : ConstructState) (x : String)
    (xs : List String) (htp : st.toProcess = x :: xs) :
    constructLoop query pick (Nat.succ n) st =
      constructLoop query pick n
        (processSpec query (popState pick st x xs) (popSpec pick x xs)) := by
  rw [constructLoop, htp]
  rfl

theorem constructLoop_fix (query : String → List CondaPackage)
    (pick : List String → Nat) (st : ConstructState) (htp : st.toProcess = []) :
    ∀ n, constructLoop query pick n st = st := by
  intro n
  cases n with
  | zero => rfl
  | succ n => exact constructLoop_succ_nil query pick n st htp

theorem popState_inv (ch : Channel) (P : Parameters) (pick : List String → Nat)
    (st : ConstructState) (x : String) (xs : List String)
    (htp : st.toProcess = x :: xs) (hW : WorkInv ch P st) :
    WorkInv ch P (popState pick st x xs) ∧
    (popState pick st x xs).processed = st.processed ++ [popSpec pick x xs] ∧
    (popState pick st x xs).graph = st.graph ∧
    popSpec pick x xs ∉ st.processed ∧
    popSpec pick x xs ∈ specStringUniverse ch P := by
  obtain ⟨hnd, hdisj, htu, hpu, htr, hpnd⟩ := hW
  have hnd2 : (x :: xs).Nodup := htp ▸ hnd
  have hsmem : popSpec pick x xs ∈ st.toProcess := by
    rw [htp]
    exact List.get_mem (x :: xs) (popIndex pick x xs) (Nat.mod_lt _ (Nat.succ_pos xs.length))
  have hsnp : popSpec pick x xs ∉ st.processed := hdisj _ hsmem
  have hsU : popSpec pick x xs ∈ specStringUniverse ch P := htu _ hsmem
  have hproc : (popState pick st x xs).processed = st.processed ++ [popSpec pick x xs] := by
    show insertAbs st.processed (popSpec pick x xs) = _
    rw [insertAbs, if_neg hsnp]
  have hsno : popSpec pick x xs ∉ (x :: xs).eraseIdx (popIndex pick x xs) :=
    nodup_get_not_mem_eraseIdx (x :: xs) hnd2 (popIndex pick x xs)
      (Nat.mod_lt _ (Nat.succ_pos xs.length))
  refine ⟨⟨?_, ?_, ?_, ?_, ?_, ?_⟩, hproc, rfl, hsnp, hsU⟩
  · exact List.Nodup.sublist (List.eraseIdx_sublist (x :: xs) (popIndex pick x xs)) hnd2
  · intro y hy
    have hymem : y ∈ x :: xs :=
      (List.eraseIdx_sublist (x :: xs) (popIndex pick x xs)).subset hy
    have hynp : y ∉ st.processed := hdisj y (htp ▸ hymem)
    have hyns : y ≠ popSpec pick x xs := by
      intro hc
      exact hsno (hc ▸ hy)
    intro hc
    rcases (mem_insertAbs _ _ _).mp hc with hc2 | hc2
    · exact hynp hc2
    · exact hyns hc2
  · intro y hy
    have hymem : y ∈ x :: xs :=
      (List.eraseIdx_sublist (x :: xs) (popIndex pick x xs)).subset hy
    exact htu y (htp ▸ hymem)
  · intro y hy
    rcases (mem_insertAbs _ _ _).mp hy with hy2 | rfl
    · exact hpu y hy2
    · exact hsU
  · show st.trace ++ [popSpec pick x xs] = insertAbs st.processed (popSpec pick x xs)
    rw [htr, insertAbs, if_neg hsnp]
  · exact insertAbs_nodup hpnd _

theorem constructLoop_inv (U : SpecUniverse) (ch : Channel) (P : Parameters)
    (pick : List String → Nat) :
    ∀ (fuel : Nat) (st : ConstructState),
      GraphInv U ch P st.graph → WorkInv ch P st →
      GraphInv U ch P ((constructLoop (resolverQuery U ch P) pick fuel st)).graph ∧
      WorkInv ch P (constructLoop (resolverQuery U ch P) pick fuel st) ∧
      (∀ m ∈ st.graph.nodes,
        m ∈ (constructLoop (resolverQuery U ch P) pick fuel st).graph.nodes) := by
  intro fuel
  induction fuel with
  | zero =>
    intro st hG hW
    exact ⟨hG, hW, fun m hm => hm⟩
  | succ n ih =>
    intro st hG hW
    cases htp : st.toProcess with
    | nil =>
      rw [constructLoop_succ_nil _ _ _ _ htp]
      exact ⟨hG, hW, fun m hm => hm⟩
    | cons x xs =>
      rw [constructLoop_succ_cons _ _ _ _ x xs htp]
      obtain ⟨hW1, _, hgr1, _, _⟩ := popState_inv ch P pick st x xs htp hW
      have hG1 : GraphInv U ch P (popState pick st x xs).graph := by
        rw [hgr1]
        exact hG
      have hsp := processSpec_inv U ch P (popState pick st x xs) (popSpec pick x xs) hG1 hW1
      have hrest := ih _ hsp.1 hsp.2.1
      refine ⟨hrest.1, hrest.2.1, ?_⟩
      intro m hm
      refine hrest.2.2 m (hsp.2.2.1 m ?_)
      rw [hgr1]
      exact hm

theorem constructLoop_drains (U : SpecUniverse) (ch : Channel) (P : Parameters)
    (pick : List String → Nat) :
    ∀ (fuel : Nat) (st : ConstructState),
      GraphInv U ch P st.graph → WorkInv ch P st →
      (specStringUniverse ch P).toFinset.card ≤ st.processed.toFinset.card + fuel →
      (constructLoop (resolverQuery U ch P) pick fuel st).toProcess = [] := by
  intro fuel
  induction fuel with
  | zero =>
    intro st hG hW hcard
    cases htp : st.toProcess with
    | nil => exact htp
    | cons x xs =>
      exfalso
      obtain ⟨hnd, hdisj, htu, hpu, htr, hpnd⟩ := hW
      have hxmem : x ∈ st.toProcess := htp ▸ List.mem_cons_self _ _
      have hxU : x ∈ specStringUniverse ch P := htu x hxmem
      have hxnp : x ∉ st.processed := hdisj x hxmem
      have hins : insert x st.processed.toFinset ⊆ (specStringUniverse ch P).toFinset := by
        intro y hy
        rcases Finset.mem_insert.mp hy with rfl | hy2
        · exact List.mem_toFinset.mpr hxU
        · exact List.mem_toFinset.mpr (hpu y (List.mem_toFinset.mp hy2))
      have hle := Finset.card_le_card hins
      rw [Finset.card_insert_of_not_mem
        (fun hc => hxnp (List.mem_toFinset.mp hc))] at hle
      omega
  | succ n ih =>
    intro st hG hW hcard
    cases htp : st.toProcess with
    | nil =>
      rw [constructLoop_succ_nil _ _ _ _ htp]
      exact htp
    | cons x xs =>
      rw [constructLoop_succ_cons _ _ _ _ x xs htp]
      obtain ⟨hW1, hproc1, hgr1, hsnp, _⟩ := popState_inv ch P pick st x xs htp hW
      have hG1 : GraphInv U ch P (popState pick st x xs).graph := by
        rw [hgr1]
        exact hG
      have hsp := processSpec_inv U ch P (popState pick st x xs) (popSpec pick x xs) hG1 hW1
      refine ih _ hsp.1 hsp.2.1 ?_
      rw [hsp.2.2.2, hproc1]
      have hcardstep : (st.processed ++ [popSpec pick x xs]).toFinset.card =
          st.processed.toFinset.card + 1 := by
        rw [List.toFinset_append]
        simp only [List.toFinset_cons, List.toFinset_nil, insert_emptyc_eq]
        rw [Finset.union_comm, ← Finset.insert_eq]
        exact Finset.card_insert_of_not_mem (by simpa using hsnp)
      omega

theorem initialState_inv (U : SpecUniverse) (ch : Channel) (P : Parameters) :
    GraphInv U ch P (initialState P.requirements).graph ∧
    WorkInv ch P (initialState P.requirements) ∧
    (∀ r ∈ resolveRoots P, RNode.spec r ∈ (initialState P.requirements).graph.nodes) := by
  have hnopkg : ∀ p : CondaPackage,
      RNode.pkg p ∉ (initialState P.requirements).graph.nodes := by
    intro p hp
    have : RNode.pkg p ∈ (dedupList P.requirements).map RNode.spec := hp
    obtain ⟨r, _, hr⟩ := List.mem_map.mp this
    cases hr
  refine ⟨⟨⟨?_, ?_, ?_, ?_⟩, ?_⟩, ⟨?_, ?_, ?_, ?_, rfl, ?_⟩, ?_⟩
  · intro e he
    exact absurd he (List.not_mem_nil e)
  · intro e he
    exact absurd he (List.not_mem_nil e)
  · intro e he
    exact absurd he (List.not_mem_nil e)
  · intro p hp
    exact absurd hp (hnopkg p)
  · intro p hp
    exact absurd hp (hnopkg p)
  · exact dedupList_nodup P.requirements
  · intro s _ hc
    exact absurd hc (List.not_mem_nil s)
  · intro s hs
    exact requirement_mem_universe ch P s ((mem_dedupList _ s).mp hs)
  · intro s hs
    exact absurd hs (List.not_mem_nil s)
  · exact List.nodup_nil
  · intro r hr
    exact List.mem_map_of_mem RNode.spec hr

theorem resolveG0_inv (U : SpecUniverse) (ch : Channel) (P : Parameters)
    (pick : List String → Nat) :
    GraphInv U ch P (resolveG0 U ch P pick) ∧
    WorkInv ch P (resolveFinalState U ch P pick) ∧
    (∀ r ∈ resolveRoots P, RNode.spec r ∈ (resolveG0 U ch P pick).nodes) := by
  obtain ⟨hG0, hW0, hroots0⟩ := initialState_inv U ch P
  have h := constructLoop_inv U ch P pick (specStringUniverse ch P).length
    (initialState P.requirements) hG0 hW0
  exact ⟨h.1, h.2.1, fun r hr => h.2.2 _ (hroots0 r hr)⟩

theorem resolveFinalState_drains (U : SpecUniverse) (ch : Channel) (P : Parameters)
    (pick : List String → Nat) :
    (resolveFinalState U ch P pick).toProcess = [] := by
  obtain ⟨hG0, hW0, _⟩ := initialState_inv U ch P
  refine constructLoop_drains U ch P pick (specStringUniverse ch P).length
    (initialState P.requirements) hG0 hW0 ?_
  have h1 := List.toFinset_card_le (specStringUniverse ch P)
  have h2 : (initialState P.requirements).processed = [] := rfl
  rw [h2]
  simpa using h1

theorem contains_eq_false {α : Type} [DecidableEq α] (l : List α) (a : α) :
    l.contains a = false ↔ a ∉ l := by
  constructor
  · intro h hc
    rw [(contains_iff_mem _ _).mpr hc] at h
    cases h
  · intro h
    cases hb : l.contains a with
    | false => rfl
    | true => exact absurd ((contains_iff_mem _ _).mp hb) h

/-- Claim C8: on every channel with a finite index the construction loop
reaches the empty work set within the fuel given by the finite universe of
specification strings (so it terminates, cycles included: no assumption on the
dependency relation is made), the trace of channel queries never repeats a
spec string, and the reached state is a fixpoint of the loop. -/
theorem construct_loop_terminates (U : SpecUniverse) (ch : Channel) (P : Parameters)
    (pick : List String → Nat) :
    (resolveFinalState U ch P pick).toProcess = [] ∧
    (resolveFinalState U ch P pick).trace.Nodup ∧
    (∀ extra, constructLoop (resolverQuery U ch P) pick extra
      (resolveFinalState U ch P pick) = resolveFinalState U ch P pick) := by
  have hdr := resolveFinalState_drains U ch P pick
  obtain ⟨_, hW, _⟩ := resolveG0_inv U ch P pick
  refine ⟨hdr, ?_, fun extra => constructLoop_fix _ _ _ hdr extra⟩
  rw [hW.2.2.2.2.1]
  exact hW.2.2.2.2.2

/-- Claim C9, amended: the work collection is a deduplicated unordered set:
no spec string is ever dequeued (and hence queried) twice, and only strings
from the requirement/dependency universe are dequeued; the dequeue order
itself depends on the set.pop choice and is not determined by the input. -/
theorem worklist_dedup_unordered (U : SpecUniverse) (ch : Channel) (P : Parameters)
    (pick : List String → Nat) :
    (resolveFinalState U ch P pick).trace.Nodup ∧
    (∀ s ∈ (resolveFinalState U ch P pick).trace, s ∈ specStringUniverse ch P) := by
  obtain ⟨_, hW, _⟩ := resolveG0_inv U ch P pick
  constructor
  · rw [hW.2.2.2.2.1]
    exact hW.2.2.2.2.2
  · intro s hs
    rw [hW.2.2.2.2.1] at hs
    exact hW.2.2.2.1 s hs

/-- Claim C9, counterexample: two admissible executions of the same source on
the same input (differing only in the unspecified set.pop choice) dequeue the
specs in different orders: with the first-enqueued-first choice the trace is
a, b, c; popping the last element instead gives a, c, b.  The dequeue order is
therefore not the first-enqueue (FIFO) order the claim asserts. -/
theorem worklist_not_fifo_counterexample :
    (resolveFinalState nameOnlyUniverse chanABC paramsOnlyA pickLast).trace =
      ["a", "c", "b"] ∧
    (resolveFinalState nameOnlyUniverse chanABC paramsOnlyA pickFirst).trace =
      ["a", "b", "c"] ∧
    (["a", "c", "b"] : List String) ≠ ["a", "b", "c"] := by
  refine ⟨?_, ?_, ?_⟩ <;> decide

/-- Claim C2: Resolver.resolve raises UnsatisfiedRequirementsError exactly when,
after the unsatisfied-spec pruning pass, some root requirement spec has no
outgoing candidate edge; the missing field of the error contains exactly those
root specs, and when no root is unsatisfied resolve returns normally. -/
theorem resolve_unsatisfied_roots_iff (U : SpecUniverse) (ch : Channel)
    (P : Parameters) (pick : List String → Nat) (sord : List RNode → List RNode)
    (hsord : ∀ nd ∈ (resolveG0 U ch P pick).nodes,
      nd ∈ sord ((resolveG0 U ch P pick).nodes)) :
    ((∃ r ∈ resolveRoots P,
        successors (resolveG1 U ch P pick sord) (RNode.spec r) = []) ↔
      (∃ m, resolveExcept U ch P pick sord = Except.error m)) ∧
    (∀ m, resolveExcept U ch P pick sord = Except.error m →
      ∀ x, x ∈ m ↔ x ∈ resolveRoots P ∧
        successors (resolveG1 U ch P pick sord) (RNode.spec x) = []) ∧
    ((¬ ∃ r ∈ resolveRoots P,
        successors (resolveG1 U ch P pick sord) (RNode.spec r) = []) →
      ∃ res, resolveExcept U ch P pick sord = Except.ok res) := by
  obtain ⟨hGinv, _, _⟩ := resolveG0_inv U ch P pick
  have hE1 : EClosed (resolveG1 U ch P pick sord) :=
    (pass1With_spec sord (resolveG0 U ch P pick)).2.1 hGinv.1.1
  have hfree := (pass1With_spec sord (resolveG0 U ch P pick)).2.2.2 hsord
  have hnotin_iff : ∀ r : String,
      RNode.spec r ∉ (resolveG1 U ch P pick sord).nodes ↔
      successors (resolveG1 U ch P pick sord) (RNode.spec r) = [] := by
    intro r
    constructor
    · intro hnm
      refine List.eq_nil_iff_forall_not_mem.mpr ?_
      intro t ht
      exact hnm (hE1 (RNode.spec r, t) ((mem_successors _ _ _).mp ht)).1
    · intro hnil hmem
      exact hfree (RNode.spec r) hmem rfl hnil
  have hmiss : ∀ x, x ∈ missingRoots (resolveG1 U ch P pick sord) (resolveRoots P) ↔
      (x ∈ resolveRoots P ∧ RNode.spec x ∉ (resolveG1 U ch P pick sord).nodes) := by
    intro x
    rw [missingRoots, List.Perm.mem_iff (List.perm_insertionSort _ _), List.mem_filter]
    constructor
    · rintro ⟨hx, hb⟩
      simp only [Bool.not_eq_true'] at hb
      exact ⟨hx, (contains_eq_false _ _).mp hb⟩
    · rintro ⟨hx, hnm⟩
      refine ⟨hx, ?_⟩
      simp only [Bool.not_eq_true']
      exact (contains_eq_false _ _).mpr hnm
  have hresolve : resolveExcept U ch P pick sord =
      if (missingRoots (resolveG1 U ch P pick sord) (resolveRoots P)).isEmpty
      then Except.ok (extractPackages U P (resolveG2 U ch P pick sord))
      else Except.error (missingRoots (resolveG1 U ch P pick sord) (resolveRoots P)) := rfl
  cases hmq : missingRoots (resolveG1 U ch P pick sord) (resolveRoots P) with
  | nil =>
    have hres2 : resolveExcept U ch P pick sord =
        Except.ok (extractPackages U P (resolveG2 U ch P pick sord)) := by
      rw [hresolve, hmq]
      rfl
    refine ⟨?_, ?_, ?_⟩
    · constructor
      · rintro ⟨r, hr, hnil⟩
        exfalso
        have hrm : r ∈ missingRoots (resolveG1 U ch P pick sord) (resolveRoots P) :=
          (hmiss r).mpr ⟨hr, (hnotin_iff r).mpr hnil⟩
        rw [hmq] at hrm
        exact absurd hrm (List.not_mem_nil r)
      · rintro ⟨m, hm⟩
        rw [hres2] at hm
        cases hm
    · intro m hm
      rw [hres2] at hm
      cases hm
    · intro _
      exact ⟨_, hres2⟩
  | cons y ys =>
    have hres2 : resolveExcept U ch P pick sord = Except.error (y :: ys) := by
      rw [hresolve, hmq]
      rfl
    have hy : y ∈ missingRoots (resolveG1 U ch P pick sord) (resolveRoots P) := by
      rw [hmq]
      exact List.mem_cons_self _ _
    obtain ⟨hyr, hynm⟩ := (hmiss y).mp hy
    refine ⟨?_, ?_, ?_⟩
    · constructor
      · intro _
        exact ⟨y :: ys, hres2⟩
      · intro _
        exact ⟨y, hyr, (hnotin_iff y).mp hynm⟩
    · intro m hm
      rw [hres2] at hm
      have hm2 : (y :: ys : List String) = m := by
        injection hm
      intro x
      rw [← hm2, ← hmq, hmiss x]
      constructor
      · rintro ⟨hx, hnm⟩
        exact ⟨hx, (hnotin_iff x).mp hnm⟩
      · rintro ⟨hx, hnil⟩
        exact ⟨hx, (hnotin_iff x).mpr hnil⟩
    · intro hno
      exact absurd ⟨y, hyr, (hnotin_iff y).mp hynm⟩ hno

theorem reaches_pass2_transfer (g1 : DiGraph) (roots : List String) (r : String)
    (hr : r ∈ roots) :
    ∀ n, Reaches g1 (RNode.spec r) n → Reaches (pass2 g1 roots) (RNode.spec r) n := by
  intro n h
  induction h with
  | refl => exact Relation.ReflTransGen.refl
  | @tail b c hab he ih =>
    have hb : b ∈ connectedSet g1 roots :=
      (mem_connectedSet g1 roots b).mpr ⟨r, hr, reachSet_complete g1 _ b hab⟩
    have hc : c ∈ connectedSet g1 roots :=
      connectedSet_closed g1 roots b hb c he
    exact Relation.ReflTransGen.tail ih (pass2_edge_intro g1 roots (b, c) he hb hc)

/-- Claim C3: after the unsatisfied-spec pruning pass followed by the
disconnected-node pruning pass (run over any constructed graph, with the
snapshot order covering the node set, in a state where every root survived
Pass 1 as Resolver.resolve guarantees at this point), every remaining
specification node has at least one outgoing candidate edge, and every
remaining node that is not a root spec is reachable from some root spec by a
directed path in the pruned graph. -/
theorem pruning_passes_invariants (g : DiGraph) (sord : List RNode → List RNode)
    (roots : List String)
    (hcov : ∀ nd ∈ g.nodes, nd ∈ sord g.nodes)
    (hroots : ∀ r ∈ roots, RNode.spec r ∈ (pass1With sord g).nodes) :
    (∀ s : String, RNode.spec s ∈ (pass2 (pass1With sord g) roots).nodes →
      successors (pass2 (pass1With sord g) roots) (RNode.spec s) ≠ []) ∧
    (∀ n ∈ (pass2 (pass1With sord g) roots).nodes,
      (¬ ∃ r ∈ roots, n = RNode.spec r) →
      ∃ r ∈ roots, Reaches (pass2 (pass1With sord g) roots) (RNode.spec r) n) := by
  have hp1 := pass1With_spec sord g
  constructor
  · intro s hs hnil
    obtain ⟨hs1, hconn⟩ := (mem_pass2_nodes _ _ _).mp hs
    have hsat := hp1.2.2.2 hcov (RNode.spec s) hs1 rfl
    obtain ⟨t, ht⟩ := List.exists_mem_of_ne_nil _ hsat
    have hte : (RNode.spec s, t) ∈ (pass1With sord g).edges :=
      (mem_successors _ _ _).mp ht
    have htconn : t ∈ connectedSet (pass1With sord g) roots :=
      connectedSet_closed _ roots (RNode.spec s) hconn t hte
    have hte2 := pass2_edge_intro (pass1With sord g) roots (RNode.spec s, t) hte hconn htconn
    have : t ∈ successors (pass2 (pass1With sord g) roots) (RNode.spec s) :=
      (mem_successors _ _ _).mpr hte2
    rw [hnil] at this
    exact absurd this (List.not_mem_nil t)
  · intro n hn _
    obtain ⟨hn1, hconn⟩ := (mem_pass2_nodes _ _ _).mp hn
    obtain ⟨r, hr, hreach⟩ := (mem_connectedSet _ _ _).mp hconn
    exact ⟨r, hr, reaches_pass2_transfer _ roots r hr n (reachSet_sound _ _ n hreach)⟩

/-- Claim C4, counterexample: with an empty channel and the single requirement
a, the spec a is a root, it is a node of the constructed graph, and Pass 1
removes it from the graph (rather than leaving it marked in place). -/
theorem root_removed_in_pass1_counterexample :
    ("a" ∈ resolveRoots paramsOnlyA) ∧
    (RNode.spec "a" ∈ (resolveG0 nameOnlyUniverse chanEmpty paramsOnlyA pickFirst).nodes) ∧
    (RNode.spec "a" ∉
      (resolveG1 nameOnlyUniverse chanEmpty paramsOnlyA pickFirst sordId).nodes) := by
  refine ⟨?_, ?_, ?_⟩ <;> decide

/-- Claim C4, amended: Pass 1 removes an unsatisfied specification node even
when it is a root: a spec node (root or not) present in the graph with no
outgoing candidate edge is absent once Pass 1 finishes.  Root verification
afterwards detects missing requirements precisely by this absence. -/
theorem pass1_removes_unsatisfied_roots (g : DiGraph) (sord : List RNode → List RNode)
    (r : String)
    (hcov : ∀ nd ∈ g.nodes, nd ∈ sord g.nodes)
    (hmem : RNode.spec r ∈ g.nodes)
    (hunsat : successors g (RNode.spec r) = []) :
    RNode.spec r ∉ (pass1With sord g).nodes := by
  intro hc
  have hp1 := pass1With_spec sord g
  have hsub : (successors (pass1With sord g) (RNode.spec r)).Sublist
      (successors g (RNode.spec r)) := successors_sublist hp1.1.2 _
  have hnil : successors (pass1With sord g) (RNode.spec r) = [] := by
    rw [hunsat] at hsub
    exact List.sublist_nil.mp hsub
  exact hp1.2.2.2 hcov (RNode.spec r) hc rfl hnil

theorem mem_extractPackages (U : SpecUniverse) (P : Parameters) (g : DiGraph)
    (p : CondaPackage) :
    p ∈ extractPackages U P g ↔
      RNode.pkg p ∈ g.nodes ∧ is_disposable U P p = false := by
  rw [extractPackages, List.mem_filterMap]
  constructor
  · rintro ⟨n, hn, hsome⟩
    cases n with
    | spec s => simp at hsome
    | pkg q =>
      have hsome2 : (if is_disposable U P q = true then none else some q) =
          some p := hsome
      by_cases hd : is_disposable U P q = true
      · rw [if_pos hd] at hsome2
        cases hsome2
      · rw [if_neg hd] at hsome2
        have hqp : q = p := by injection hsome2
        subst hqp
        cases hdv : is_disposable U P q with
        | false => exact ⟨hn, rfl⟩
        | true => exact absurd hdv hd
  · rintro ⟨hn, hd⟩
    refine ⟨RNode.pkg p, hn, ?_⟩
    show (if is_disposable U P p = true then none else some p) = some p
    rw [hd]
    rfl

theorem not_constrained_bounds (U : SpecUniverse) (P : Parameters) (p : CondaPackage)
    (h : is_constrained U P p = false) :
    (∀ s ∈ P.requirements, U.specName s = p.name → U.specMatch s p = true) ∧
    (∀ x ∈ P.exclusions, U.specName x = p.name → U.specMatch x p = false) := by
  rw [is_constrained] at h
  cases hallb : (P.requirements.filter (fun s => U.specName s == p.name)).all
      (fun s => U.specMatch s p) with
  | false =>
    rw [hallb] at h
    simp at h
  | true =>
    rw [hallb] at h
    cases hanyb : (P.exclusions.filter (fun x => U.specName x == p.name)).any
        (fun x => U.specMatch x p) with
    | true =>
      simp [hanyb] at h
    | false =>
      constructor
      · intro s hs hname
        exact List.all_eq_true.mp hallb s
          (List.mem_filter.mpr ⟨hs, beq_iff_eq.mpr hname⟩)
      · intro x hx hname
        cases hm : U.specMatch x p with
        | false => rfl
        | true =>
          exfalso
          have hany : (P.exclusions.filter (fun x => U.specName x == p.name)).any
              (fun x => U.specMatch x p) = true :=
            List.any_eq_true.mpr ⟨x, List.mem_filter.mpr ⟨hx, beq_iff_eq.mpr hname⟩, hm⟩
          rw [hanyb] at hany
          cases hany

/-- Claim C5: whenever resolution succeeds, every returned record meets both
bounds: no exclusion spec of its name group matches it, and every requirement
spec of its name group matches it (vacuously true for empty groups). -/
theorem resolve_requirement_exclusion_bounds (U : SpecUniverse) (ch : Channel)
    (P : Parameters) (pick : List String → Nat) (sord : List RNode → List RNode)
    (res : List CondaPackage)
    (hok : resolveExcept U ch P pick sord = Except.ok res) :
    ∀ r ∈ res,
      (∀ x ∈ P.exclusions, U.specName x = r.name → U.specMatch x r = false) ∧
      (∀ s ∈ P.requirements, U.specName s = r.name → U.specMatch s r = true) := by
  intro r hr
  have hres : res = extractPackages U P (resolveG2 U ch P pick sord) := by
    rw [show resolveExcept U ch P pick sord =
      (if (missingRoots (resolveG1 U ch P pick sord) (resolveRoots P)).isEmpty
       then Except.ok (extractPackages U P (resolveG2 U ch P pick sord))
       else Except.error (missingRoots (resolveG1 U ch P pick sord) (resolveRoots P)))
      from rfl] at hok
    by_cases hq : (missingRoots (resolveG1 U ch P pick sord) (resolveRoots P)).isEmpty = true
    · rw [if_pos hq] at hok
      injection hok with h
      exact h.symm
    · rw [if_neg hq] at hok
      cases hok
  rw [hres] at hr
  have hnode2 : RNode.pkg r ∈ (resolveG2 U ch P pick sord).nodes :=
    ((mem_extractPackages _ _ _ _).mp hr).1
  have hnode1 : RNode.pkg r ∈ (resolveG1 U ch P pick sord).nodes :=
    ((mem_pass2_nodes _ _ _).mp hnode2).1
  have hnode0 : RNode.pkg r ∈ (resolveG0 U ch P pick).nodes :=
    (pass1With_spec sord (resolveG0 U ch P pick)).1.1.subset hnode1
  obtain ⟨s, hq⟩ := (resolveG0_inv U ch P pick).1.1.2.2.2 r hnode0
  have hb := not_constrained_bounds U P r (resolverQuery_not_constrained U ch P s r hq)
  exact ⟨hb.2, hb.1⟩

/-- Claim C1, counterexample (spec section 8 scenario 7): with index a -> b
and b, requirement a and disposable b, resolution succeeds with result set
containing exactly a, yet for the dependency string b of a neither does any
record of the result match b, nor is the name of a among the disposable spec
names: the claim's disjunction fails. -/
theorem resolve_closure_counterexample :
    (resolveExcept nameOnlyUniverse chanAB paramsDisposeB pickFirst sordId =
      Except.ok [pkgA]) ∧
    ¬ (∀ r ∈ [pkgA], ∀ d ∈ r.depends,
        (∃ s ∈ paramsDisposeB.disposables, nameOnlyUniverse.specName s = r.name) ∨
        (∃ q ∈ [pkgA], nameOnlyUniverse.specMatch d q = true)) := by
  refine ⟨rfl, by decide⟩

/-- Claim C1, amended: whenever resolution succeeds, for every record r of the
result and every dependency string d of r there is a record q in the pruned
resolution graph that matches d, and q is in the result unless it is
disposable (matched by a disposable spec of its name group).  The original
claim's alternative, that the name of r itself is disposable, is what fails
(see the counterexample). -/
theorem resolve_closure_amended (U : SpecUniverse) (ch : Channel) (P : Parameters)
    (pick : List String → Nat) (sord : List RNode → List RNode)
    (res : List CondaPackage)
    (hsord : ∀ nd ∈ (resolveG0 U ch P pick).nodes,
      nd ∈ sord ((resolveG0 U ch P pick).nodes))
    (hok : resolveExcept U ch P pick sord = Except.ok res) :
    ∀ r ∈ res, ∀ d ∈ r.depends,
      ∃ q : CondaPackage,
        RNode.pkg q ∈ (resolveG2 U ch P pick sord).nodes ∧
        U.specMatch d q = true ∧
        (is_disposable U P q = true ∨ q ∈ res) := by
  intro r hr d hd
  obtain ⟨⟨hE0, hB0, hshape0, _⟩, hdeps0⟩ := (resolveG0_inv U ch P pick).1
  have hp1 := pass1With_spec sord (resolveG0 U ch P pick)
  have hE1 : EClosed (resolveG1 U ch P pick sord) := hp1.2.1 hE0
  have hB1 : Bip (resolveG1 U ch P pick sord) := bip_of_edges_sublist hB0 hp1.1.2
  have hres : res = extractPackages U P (resolveG2 U ch P pick sord) := by
    rw [show resolveExcept U ch P pick sord =
      (if (missingRoots (resolveG1 U ch P pick sord) (resolveRoots P)).isEmpty
       then Except.ok (extractPackages U P (resolveG2 U ch P pick sord))
       else Except.error (missingRoots (resolveG1 U ch P pick sord) (resolveRoots P)))
      from rfl] at hok
    by_cases hq : (missingRoots (resolveG1 U ch P pick sord) (resolveRoots P)).isEmpty = true
    · rw [if_pos hq] at hok
      injection hok with h
      exact h.symm
    · rw [if_neg hq] at hok
      cases hok
  have hr2 : r ∈ extractPackages U P (resolveG2 U ch P pick sord) := hres ▸ hr
  have hnode2 : RNode.pkg r ∈ (resolveG2 U ch P pick sord).nodes :=
    ((mem_extractPackages _ _ _ _).mp hr2).1
  obtain ⟨hnode1, hrconn⟩ := (mem_pass2_nodes _ _ _).mp hnode2
  have hnode0 : RNode.pkg r ∈ (resolveG0 U ch P pick).nodes := hp1.1.1.subset hnode1
  -- the dependency edge survives Pass 1 because r itself survived
  have hedge0 : (RNode.pkg r, RNode.spec d) ∈ (resolveG0 U ch P pick).edges :=
    hdeps0 r hnode0 d hd
  have hedge1 : (RNode.pkg r, RNode.spec d) ∈ (resolveG1 U ch P pick sord).edges :=
    hp1.2.2.1 hB0 r (RNode.spec d) hnode1 hedge0
  have hspecd1 : RNode.spec d ∈ (resolveG1 U ch P pick sord).nodes :=
    (hE1 _ hedge1).2
  have hdconn : RNode.spec d ∈ connectedSet (resolveG1 U ch P pick sord) (resolveRoots P) :=
    connectedSet_closed _ _ (RNode.pkg r) hrconn (RNode.spec d) hedge1
  -- the spec node for d is satisfied after Pass 1, giving a candidate
  have hsat : successors (resolveG1 U ch P pick sord) (RNode.spec d) ≠ [] :=
    hp1.2.2.2 hsord (RNode.spec d) hspecd1 rfl
  obtain ⟨t, ht⟩ := List.exists_mem_of_ne_nil _ hsat
  have hte1 : (RNode.spec d, t) ∈ (resolveG1 U ch P pick sord).edges :=
    (mem_successors _ _ _).mp ht
  have htconn : t ∈ connectedSet (resolveG1 U ch P pick sord) (resolveRoots P) :=
    connectedSet_closed _ _ (RNode.spec d) hdconn t hte1
  have htnode1 : t ∈ (resolveG1 U ch P pick sord).nodes := (hE1 _ hte1).2
  have htnode2 : t ∈ (resolveG2 U ch P pick sord).nodes :=
    (mem_pass2_nodes _ _ _).mpr ⟨htnode1, htconn⟩
  -- the candidate is a package node
  have htpkg : isPkgNode t = true := by
    rcases hB1 (RNode.spec d, t) hte1 with ⟨_, h2⟩ | ⟨h1, _⟩
    · exact h2
    · cases h1
  cases t with
  | spec s2 => cases htpkg
  | pkg q =>
    -- the candidate edge comes from a channel query for d, so q matches d
    have hte0 : (RNode.spec d, RNode.pkg q) ∈ (resolveG0 U ch P pick).edges :=
      hp1.1.2.subset hte1
    have hmatch : U.specMatch d q = true := by
      rcases hshape0 (RNode.spec d, RNode.pkg q) hte0 with
        ⟨s3, p3, heq, hq3⟩ | ⟨p3, d3, heq, _⟩
      · have h1 : RNode.spec d = RNode.spec s3 := congrArg Prod.fst heq
        have h2 : RNode.pkg q = RNode.pkg p3 := congrArg Prod.snd heq
        have hs3 : s3 = d := by injection h1 with h; exact h.symm
        have hp3 : p3 = q := by injection h2 with h; exact h.symm
        rw [hs3, hp3] at hq3
        exact resolverQuery_matches U ch P d q hq3
      · have h1 : RNode.spec d = RNode.pkg p3 := congrArg Prod.fst heq
        cases h1
    refine ⟨q, htnode2, hmatch, ?_⟩
    cases hdq : is_disposable U P q with
    | true => exact Or.inl rfl
    | false =>
      refine Or.inr ?_
      rw [hres]
      exact (mem_extractPackages _ _ _ _).mpr ⟨htnode2, hdq⟩

/-- Witness for claim C1's amended theorem at the scenario-7 instance, fully
instantiated at the record a and its dependency string b. -/
theorem resolve_closure_amended_witness :
    ∃ q : CondaPackage,
      RNode.pkg q ∈
        (resolveG2 nameOnlyUniverse chanAB paramsDisposeB pickFirst sordId).nodes ∧
      nameOnlyUniverse.specMatch "b" q = true ∧
      (is_disposable nameOnlyUniverse paramsDisposeB q = true ∨ q ∈ [pkgA]) :=
  resolve_closure_amended nameOnlyUniverse chanAB paramsDisposeB pickFirst sordId
    [pkgA] (fun nd h => h) rfl pkgA (by decide) "b" (by decide)

/-- Witness for claim C2's theorem on a concrete unsatisfiable input. -/
theorem resolve_unsatisfied_roots_witness :
    ((∃ r ∈ resolveRoots paramsOnlyA,
        successors (resolveG1 nameOnlyUniverse chanEmpty paramsOnlyA pickFirst sordId)
          (RNode.spec r) = []) ↔
      (∃ m, resolveExcept nameOnlyUniverse chanEmpty paramsOnlyA pickFirst sordId =
        Except.error m)) ∧
    (∀ m, resolveExcept nameOnlyUniverse chanEmpty paramsOnlyA pickFirst sordId =
        Except.error m →
      ∀ x, x ∈ m ↔ x ∈ resolveRoots paramsOnlyA ∧
        successors (resolveG1 nameOnlyUniverse chanEmpty paramsOnlyA pickFirst sordId)
          (RNode.spec x) = []) ∧
    ((¬ ∃ r ∈ resolveRoots paramsOnlyA,
        successors (resolveG1 nameOnlyUniverse chanEmpty paramsOnlyA pickFirst sordId)
          (RNode.spec r) = []) →
      ∃ res, resolveExcept nameOnlyUniverse chanEmpty paramsOnlyA pickFirst sordId =
        Except.ok res) :=
  resolve_unsatisfied_roots_iff nameOnlyUniverse chanEmpty paramsOnlyA pickFirst sordId
    (fun nd h => h)

/-- Witness for claim C3's theorem on a concrete two-node graph. -/
theorem pruning_passes_invariants_witness :
    (∀ s : String, RNode.spec s ∈ (pass2 (pass1With sordId
        (DiGraph.mk [RNode.spec "r", RNode.pkg pkgB]
          [(RNode.spec "r", RNode.pkg pkgB)])) ["r"]).nodes →
      successors (pass2 (pass1With sordId
        (DiGraph.mk [RNode.spec "r", RNode.pkg pkgB]
          [(RNode.spec "r", RNode.pkg pkgB)])) ["r"]) (RNode.spec s) ≠ []) ∧
    (∀ n ∈ (pass2 (pass1With sordId
        (DiGraph.mk [RNode.spec "r", RNode.pkg pkgB]
          [(RNode.spec "r", RNode.pkg pkgB)])) ["r"]).nodes,
      (¬ ∃ r ∈ ["r"], n = RNode.spec r) →
      ∃ r ∈ ["r"], Reaches (pass2 (pass1With sordId
        (DiGraph.mk [RNode.spec "r", RNode.pkg pkgB]
          [(RNode.spec "r", RNode.pkg pkgB)])) ["r"]) (RNode.spec r) n) :=
  pruning_passes_invariants
    (DiGraph.mk [RNode.spec "r", RNode.pkg pkgB] [(RNode.spec "r", RNode.pkg pkgB)])
    sordId ["r"] (fun nd h => h) (by decide)

/-- Witness for claim C4's amended theorem on a one-node graph. -/
theorem pass1_removes_unsatisfied_roots_witness :
    RNode.spec "a" ∉ (pass1With sordId (DiGraph.mk [RNode.spec "a"] [])).nodes :=
  pass1_removes_unsatisfied_roots (DiGraph.mk [RNode.spec "a"] []) sordId "a"
    (fun nd h => h) (by decide) rfl

/-- Witness for claim C5's theorem at the scenario-7 instance, instantiated at
the record a. -/
theorem resolve_bounds_witness :
    (∀ x ∈ paramsDisposeB.exclusions, nameOnlyUniverse.specName x = pkgA.name →
      nameOnlyUniverse.specMatch x pkgA = false) ∧
    (∀ s ∈ paramsDisposeB.requirements, nameOnlyUniverse.specName s = pkgA.name →
      nameOnlyUniverse.specMatch s pkgA = true) :=
  resolve_requirement_exclusion_bounds nameOnlyUniverse chanAB paramsDisposeB
    pickFirst sordId [pkgA] rfl pkgA (by decide)
